import Mathlib

/-!
Verification of the `order_book` matching core (fixed-price order book).

This file gives a shallow embedding of the Rust sources
`src/fixed_price_order_book.rs` and `src/models/bitset.rs` and proves or
refutes the frozen claims about them.

Modelling conventions:
* machine integers become `Nat` / `Int`; where wrap-around matters the
  reduction `% 2 ^ 32` / `% 2 ^ 64` is written explicitly (release-mode
  two's-complement semantics for the unchecked `u32` accumulations);
* fallible code returns `Except OrderBookError`; a Rust panic
  (index out of bounds, `usize` underflow, `unwrap` of a vacant slot,
  division by zero) is modelled by `Option.none` wrapped around the result;
* `&mut self` methods become functions `Book → … → Option (Book × Except e α)`:
  state mutated before an early `return Err(..)` survives, exactly as in Rust;
* the `while` loop inside `match_order_against_book` is modelled with an
  explicit fuel argument (`fill_loop`); the loop body can push one element
  back onto the queue only in the branch that zeroes the aggressor, so fuel
  `queue.length + 1` never runs out (proved in `fill_loop_spec`);
* the external monotonic clock `utils::get_timestamp` (whose source file is
  not part of the matching core) is modelled by a `clock` counter carried in
  the book state and bumped at each call;
* the `slab` crate's `Slab<Order>` is modelled as a `List (Option Order)`;
  `insert` fills the lowest vacant slot (the crate reuses freed slots in a
  different order, which no claim observes), `remove` vacates a slot;
* the `bench_stats` field, the `empty_queues` counter and the `println!`
  calls are pure instrumentation / I/O and are omitted.
-/

namespace OBook

/-- Order types, from `src/enums/order_type.rs`. -/
inductive OrderType where
  | Limit
  | Market
  | ImmediateOrCancel
  | FillOrKill
deriving DecidableEq, Repr

/-- Order sides, from `src/enums/order_side.rs`. -/
inductive OrderSide where
  | Buy
  | Sell
deriving DecidableEq, Repr

/-- Order statuses, from `src/enums/order_status.rs`. -/
inductive OrderStatus where
  | PendingNew
  | Active
  | PartiallyFilled
  | Filled
  | Canceled
  | Rejected
  | Expired
deriving DecidableEq, Repr

/-- Error taxonomy, from `src/enums/order_book_errors.rs`. -/
inductive OrderBookError where
  | InvalidTick (tick : Nat)
  | PriceOutOfRange
  | OrderNotFound
  | NonLimitOrderRestAttempt
  | CannotFillCompletely
  | InsufficientLiquidity
  | BitsetIndexOutOfRange (n : Nat)
  | FullRingBuffer
  | EmptyRingBuffer
  | InvalidConfigData
  | Other (msg : String)
deriving DecidableEq, Repr

/-- Orders, from `src/models/order.rs`.  `order_id : u64`, `user_id : u32`,
`price : u32` (a tick index) become `Nat`; `quantity : i32` becomes `Int`. -/
structure Order where
  order_id : Nat
  order_type : OrderType
  order_status : OrderStatus
  order_side : OrderSide
  user_id : Nat
  price : Nat
  quantity : Int
deriving DecidableEq, Repr

/-- Fill records, from `src/models/order_fill.rs` (`quantity : u32`,
`timestamp : u128` become `Nat`). -/
structure OrderFill where
  aggressive_order_id : Nat
  resting_order_id : Nat
  price : Nat
  quantity : Nat
  timestamp : Nat
deriving DecidableEq, Repr

/-- The bit-reinterpreting cast `as u32` applied to an `i32` value. -/
def u32_cast (q : Int) : Nat := (q % (2 ^ 32 : Int)).toNat

/-! ### Bitset

Shallow embedding of `src/models/bitset.rs`.  The const generic `N` becomes a
structure field; the backing array `[u64; (N + 63) / 64]` becomes a list of
words.  In the source, `set`/`clear`/`is_set` compute
`block = (N + 63) / 64 - (idx >> 6) - 1`; when `idx >> 6 ≥ (N + 63) / 64`
this `usize` subtraction underflows (a panic in debug builds, a wild index
panic in release builds), modelled as `none`. -/
structure Bitset where
  N : Nat
  bits : List Nat
deriving DecidableEq, Repr

/-- `Bitset::<N>::new()`. -/
def Bitset.new (N : Nat) : Bitset :=
  { N := N, bits := List.replicate ((N + 63) / 64) 0 }

/-- Trailing-zero count of a `u64` word (`u64::trailing_zeros`), with 64
iterations of fuel; only ever applied to nonzero words (the scan guards on
`*block != 0`), for which it terminates before the fuel runs out. -/
def ctzAux : Nat → Nat → Nat
  | 0, _ => 64
  | fuel + 1, w => if w % 2 = 1 then 0 else ctzAux fuel (w / 2) + 1

/-- `u64::trailing_zeros`. -/
def ctz (w : Nat) : Nat := ctzAux 64 w

/-- Position of the most significant set bit of a nonzero `u64` word, i.e.
`63 - leading_zeros` as computed in `find_last_set`. -/
def msbAux : Nat → Nat → Nat
  | 0, _ => 0
  | fuel + 1, w => if w ≤ 1 then 0 else msbAux fuel (w / 2) + 1

/-- `63 - u64::leading_zeros(w)` for nonzero `w`. -/
def msb (w : Nat) : Nat := msbAux 64 w

/-- `Bitset::set(idx)`. -/
def Bitset.set (bs : Bitset) (idx : Nat) : Option (Except OrderBookError Bitset) :=
  if idx > bs.N then
    some (.error (.BitsetIndexOutOfRange bs.N))
  else
    let W := (bs.N + 63) / 64
    if W ≤ idx >>> 6 then
      none
    else
      let block := W - (idx >>> 6) - 1
      let bit := idx &&& 63
      match bs.bits[block]? with
      | none => none
      | some w => some (.ok { bs with bits := bs.bits.set block (w ||| (1 <<< bit)) })

/-- `Bitset::clear(idx)`.  `!(1 << bit)` on `u64` is `(2^64 - 1) ^^^ (1 <<< bit)`. -/
def Bitset.clear (bs : Bitset) (idx : Nat) : Option (Except OrderBookError Bitset) :=
  if idx > bs.N then
    some (.error (.BitsetIndexOutOfRange bs.N))
  else
    let W := (bs.N + 63) / 64
    if W ≤ idx >>> 6 then
      none
    else
      let block := W - (idx >>> 6) - 1
      let bit := idx &&& 63
      match bs.bits[block]? with
      | none => none
      | some w => some (.ok { bs with bits := bs.bits.set block (w &&& ((2 ^ 64 - 1) ^^^ (1 <<< bit))) })

/-- `Bitset::is_set(idx)`; returns `false` outright when `idx > N`. -/
def Bitset.is_set (bs : Bitset) (idx : Nat) : Option Bool :=
  if idx > bs.N then
    some false
  else
    let W := (bs.N + 63) / 64
    if W ≤ idx >>> 6 then
      none
    else
      let block := W - (idx >>> 6) - 1
      let bit := idx &&& 63
      match bs.bits[block]? with
      | none => none
      | some w => some (decide ((w &&& (1 <<< bit)) ≠ 0))

/-- The block scan of `find_first_set`: `self.bits.iter().enumerate()` with
the first nonzero word winning. -/
def findFirstAux (W : Nat) : Nat → List Nat → Option Nat
  | _, [] => none
  | block_index, w :: rest =>
    if w ≠ 0 then some ((W - 1 - block_index) * 64 + ctz w)
    else findFirstAux W (block_index + 1) rest

/-- `Bitset::find_first_set()`. -/
def Bitset.find_first_set (bs : Bitset) : Option Nat :=
  findFirstAux ((bs.N + 63) / 64) 0 bs.bits

/-- The block scan of `find_last_set`. -/
def findLastAux (W : Nat) : Nat → List Nat → Option Nat
  | _, [] => none
  | block_index, w :: rest =>
    if w ≠ 0 then some ((W - 1 - block_index) * 64 + msb w)
    else findLastAux W (block_index + 1) rest

/-- `Bitset::find_last_set()`. -/
def Bitset.find_last_set (bs : Bitset) : Option Nat :=
  findLastAux ((bs.N + 63) / 64) 0 bs.bits

/-- Well-formedness of a bitset value: the backing list has the length of the
Rust array `[u64; (N + 63) / 64]` and each word is a `u64`. -/
def Bitset.wf (bs : Bitset) : Prop :=
  bs.bits.length = (bs.N + 63) / 64 ∧ ∀ w ∈ bs.bits, w < 2 ^ 64

instance (bs : Bitset) : Decidable bs.wf := by
  unfold Bitset.wf; infer_instance

/-! ### FixedPriceOrderBook: data model -/

/-- Configuration of the fixed-price book (`FixedPriceOrderBookConfig`,
fields as constructed throughout the test module of
`src/fixed_price_order_book.rs`: `min_price`, `max_price`, `tick_size`
are `u32`, `queue_size : usize`). -/
structure FixedPriceOrderBookConfig where
  min_price : Nat
  max_price : Nat
  tick_size : Nat
  queue_size : Nat
deriving DecidableEq, Repr

/-- The book state, from `struct FixedPriceOrderBook`.  Queues of ledger
indices (`VecDeque<usize>`) are lists with the front at the head; the
`Slab<Order>` ledger is a list of optional slots; the
`HashMap<u64, usize>` is an association list; `bench_stats` (pure timing
instrumentation) is dropped and a `clock` counter models the external
monotonic timestamp source. -/
structure FixedPriceOrderBook where
  config : FixedPriceOrderBookConfig
  bids : List (List Nat)
  asks : List (List Nat)
  order_ledger : List (Option Order)
  index_mappings : List (Nat × Nat)
  trade_history : List OrderFill
  best_bid_index : Option Nat
  best_ask_index : Option Nat
  clock : Nat
deriving DecidableEq, Repr

/-- `Slab::get(i)` / `Slab::get_mut(i)`: the live order at slot `i`, if any. -/
def slabGet (ledger : List (Option Order)) (i : Nat) : Option Order :=
  match ledger[i]? with
  | none => none
  | some slot => slot

/-- `Slab::remove(i)` (the caller has already checked the slot is occupied):
vacate slot `i`. -/
def slabRemove (ledger : List (Option Order)) (i : Nat) : List (Option Order) :=
  ledger.set i none

/-- `Slab::insert(o)`: store `o` in a vacant slot and return its stable index.
Modelled as lowest-vacant-slot allocation (the crate reuses freed slots in a
different order; no claim observes which free slot is chosen). -/
def slabInsert (ledger : List (Option Order)) (o : Order) : List (Option Order) × Nat :=
  match ledger with
  | [] => ([some o], 0)
  | none :: rest => (some o :: rest, 0)
  | some x :: rest =>
    let (rest', i) := slabInsert rest o
    (some x :: rest', i + 1)

/-- `HashMap::insert(k, v)`: replace any existing binding of `k`. -/
def mapInsert (m : List (Nat × Nat)) (k v : Nat) : List (Nat × Nat) :=
  (k, v) :: m.filter (fun p => p.1 ≠ k)

/-- `utils::get_timestamp()` (source outside the matching core): the external
monotonic clock, modelled by the `clock` counter in the book state. -/
def tickClock (bk : FixedPriceOrderBook) : FixedPriceOrderBook × Nat :=
  ({ bk with clock := bk.clock + 1 }, bk.clock)

/-! ### FixedPriceOrderBook: operations -/

/-- `FixedPriceOrderBook::fill_order` — the atomic liquidity-transfer
primitive (lines 54–111).  Takes the level queue (already with the resting
index popped off the front), the aggressive order, the resting index and the
fill accumulator; returns the updated book, queue, aggressor, fills, and the
`filled_order` flag. -/
def fill_order (bk : FixedPriceOrderBook) (queue : List Nat) (aggressive_order : Order)
    (resting_order_index : Nat) (fills : List OrderFill) :
    Option (FixedPriceOrderBook ×
      Except OrderBookError (List Nat × Order × List OrderFill × Bool)) :=
  match slabGet bk.order_ledger resting_order_index with
  | none => some (bk, .error .OrderNotFound)
  | some resting_order =>
    if resting_order.quantity = aggressive_order.quantity then
      let (bk, ts) := tickClock bk
      let fill : OrderFill :=
        { aggressive_order_id := aggressive_order.order_id
          resting_order_id := resting_order.order_id
          price := resting_order.price
          quantity := u32_cast resting_order.quantity
          timestamp := ts }
      -- remove_resting_order = true, filled_order = true
      some ({ bk with order_ledger := slabRemove bk.order_ledger resting_order_index },
        .ok (queue,
          { aggressive_order with
              quantity := aggressive_order.quantity - resting_order.quantity },
          fills ++ [fill], true))
    else if resting_order.quantity > aggressive_order.quantity then
      let (bk, ts) := tickClock bk
      let fill : OrderFill :=
        { aggressive_order_id := aggressive_order.order_id
          resting_order_id := resting_order.order_id
          price := resting_order.price
          quantity := u32_cast aggressive_order.quantity
          timestamp := ts }
      -- resting order survives: decrement it and push it back to the queue front
      some ({ bk with
          order_ledger := bk.order_ledger.set resting_order_index
            (some { resting_order with
              quantity := resting_order.quantity - aggressive_order.quantity }) },
        .ok (resting_order_index :: queue,
          { aggressive_order with quantity := 0 },
          fills ++ [fill], true))
    else
      let (bk, ts) := tickClock bk
      let fill : OrderFill :=
        { aggressive_order_id := aggressive_order.order_id
          resting_order_id := resting_order.order_id
          price := resting_order.price
          quantity := u32_cast resting_order.quantity
          timestamp := ts }
      -- remove_resting_order = true, filled_order = false
      some ({ bk with order_ledger := slabRemove bk.order_ledger resting_order_index },
        .ok (queue,
          { aggressive_order with
              quantity := aggressive_order.quantity - resting_order.quantity },
          fills ++ [fill], false))

/-- The inner `while aggressive_order.quantity > 0 && !queue.is_empty()` loop
of `match_order_against_book`, with explicit fuel.  `fill_order` can push the
surviving resting index back onto the queue only in the branch that zeroes
the aggressor, so fuel `queue.length + 1` never reaches 0 on the paths the
program takes (`fill_loop_spec`). -/
def fill_loop : Nat → FixedPriceOrderBook → Order → List Nat → List OrderFill →
    Option (FixedPriceOrderBook ×
      Except OrderBookError (Order × List Nat × List OrderFill))
  | 0, _, _, _, _ => none
  | fuel + 1, bk, aggressive_order, queue, fills =>
    if 0 < aggressive_order.quantity ∧ queue ≠ [] then
      match queue with
      | [] => some (bk, .ok (aggressive_order, queue, fills))
      | resting_order_index :: queue =>
        match fill_order bk queue aggressive_order resting_order_index fills with
        | none => none
        | some (bk, .error e) => some (bk, .error e)
        | some (bk, .ok (queue, aggressive_order, fills, _filled)) =>
          fill_loop fuel bk aggressive_order queue fills
    else
      some (bk, .ok (aggressive_order, queue, fills))

/-- The bid-side arm of `match_order_against_book` (match side `Buy`,
i.e. a Sell aggressor walking `(start_index..=end_index).rev()`), iterating
over the precomputed descending index list.  Each level is `mem::take`-n out
of its slot, drained, and stored back. -/
def match_levels_bids (bk : FixedPriceOrderBook) (aggressive_order : Order)
    (fills : List OrderFill) : List Nat →
    Option (FixedPriceOrderBook × Except OrderBookError (Order × List OrderFill))
  | [] => some (bk, .ok (aggressive_order, fills))
  | i :: rest =>
    if aggressive_order.quantity = 0 then
      some (bk, .ok (aggressive_order, fills))
    else
      match bk.bids[i]? with
      | none => match_levels_bids bk aggressive_order fills rest
      | some queue =>
        let bk := { bk with bids := bk.bids.set i [] }
        match fill_loop (queue.length + 1) bk aggressive_order queue fills with
        | none => none
        | some (bk, .error e) => some (bk, .error e)
        | some (bk, .ok (aggressive_order, queue, fills)) =>
          let bk := { bk with bids := bk.bids.set i queue }
          match_levels_bids bk aggressive_order fills rest

/-- The ask-side arm of `match_order_against_book` (match side `Sell`,
i.e. a Buy aggressor walking `start_index..=end_index` ascending). -/
def match_levels_asks (bk : FixedPriceOrderBook) (aggressive_order : Order)
    (fills : List OrderFill) : List Nat →
    Option (FixedPriceOrderBook × Except OrderBookError (Order × List OrderFill))
  | [] => some (bk, .ok (aggressive_order, fills))
  | i :: rest =>
    if aggressive_order.quantity = 0 then
      some (bk, .ok (aggressive_order, fills))
    else
      match bk.asks[i]? with
      | none => match_levels_asks bk aggressive_order fills rest
      | some queue =>
        let bk := { bk with asks := bk.asks.set i [] }
        match fill_loop (queue.length + 1) bk aggressive_order queue fills with
        | none => none
        | some (bk, .error e) => some (bk, .error e)
        | some (bk, .ok (aggressive_order, queue, fills)) =>
          let bk := { bk with asks := bk.asks.set i queue }
          match_levels_asks bk aggressive_order fills rest

/-- `match_order_against_book(aggressive_order, start_index, end_index)`
(lines 260–331).  A Buy aggressor matches against asks, scanned ascending
from `best_ask_index.unwrap_or(start_index)`; a Sell aggressor matches
against bids, scanned descending from `best_bid_index.unwrap_or(end_index)`. -/
def match_order_against_book (bk : FixedPriceOrderBook) (aggressive_order : Order)
    (start_index end_index : Nat) :
    Option (FixedPriceOrderBook × Except OrderBookError (Order × List OrderFill)) :=
  let match_side := if aggressive_order.order_side = .Buy then OrderSide.Sell else .Buy
  match match_side with
  | .Buy =>
    let end_index := bk.best_bid_index.getD end_index
    match_levels_bids bk aggressive_order []
      ((List.range' start_index (end_index + 1 - start_index)).reverse)
  | .Sell =>
    let start_index := bk.best_ask_index.getD start_index
    match_levels_asks bk aggressive_order []
      (List.range' start_index (end_index + 1 - start_index))

/-- `fill_limit_order` (lines 202–217): Buy scans `[0, order.price]`,
Sell scans `[order.price, bids.len() - 1]`; the fills are appended to the
persistent trade history and returned. -/
def fill_limit_order (bk : FixedPriceOrderBook) (order : Order) :
    Option (FixedPriceOrderBook × Except OrderBookError (Order × List OrderFill)) :=
  let res :=
    match order.order_side with
    | .Buy => match_order_against_book bk order 0 order.price
    | .Sell => match_order_against_book bk order order.price (bk.bids.length - 1)
  match res with
  | none => none
  | some (bk, .error e) => some (bk, .error e)
  | some (bk, .ok (order, fills)) =>
    some ({ bk with trade_history := bk.trade_history ++ fills }, .ok (order, fills))

/-- `fill_market_order` (lines 220–235): Buy scans the whole ask axis,
Sell the whole bid axis.  Modelling note: the source's
`trade_history.append(&mut fills)` empties `fills`, so Rust returns an
empty vector where this model returns the fill list; the caller
(`execute_fill_by_order_type`) discards that return value and every
theorem reads the faithfully modelled `trade_history`, so nothing
observable differs. -/
def fill_market_order (bk : FixedPriceOrderBook) (order : Order) :
    Option (FixedPriceOrderBook × Except OrderBookError (Order × List OrderFill)) :=
  let res :=
    match order.order_side with
    | .Buy => match_order_against_book bk order 0 (bk.asks.length - 1)
    | .Sell => match_order_against_book bk order 0 (bk.bids.length - 1)
  match res with
  | none => none
  | some (bk, .error e) => some (bk, .error e)
  | some (bk, .ok (order, fills)) =>
    some ({ bk with trade_history := bk.trade_history ++ fills }, .ok (order, fills))

/-- `fill_immediate_or_cancel_order` (lines 238–244): delegates to
`fill_limit_order`. -/
def fill_immediate_or_cancel_order (bk : FixedPriceOrderBook) (order : Order) :
    Option (FixedPriceOrderBook × Except OrderBookError (Order × List OrderFill)) :=
  fill_limit_order bk order

/-- One level's contribution to `can_fill_completely`:
`queue.iter().map(|&idx| self.order_ledger[idx].quantity as u32).sum::<u32>()`.
Indexing a vacant slab slot panics (`none`); the `u32` sum wraps. -/
def queueQuantitySum (ledger : List (Option Order)) : List Nat → Option Nat
  | [] => some 0
  | idx :: rest =>
    match slabGet ledger idx with
    | none => none
    | some o =>
      match queueQuantitySum ledger rest with
      | none => none
      | some s => some ((u32_cast o.quantity + s) % 2 ^ 32)

/-- The accumulation loop of `can_fill_completely` over a list of level
indices, with the running wrapped `u32` total. -/
def canFillLoop (bk : FixedPriceOrderBook) (levels : List (List Nat) )
    (order : Order) (available_quantity : Nat) : List Nat → Option Bool
  | [] => some false
  | i :: rest =>
    match levels[i]? with
    | none => none
    | some queue =>
      match queueQuantitySum bk.order_ledger queue with
      | none => none
      | some s =>
        let available_quantity := (available_quantity + s) % 2 ^ 32
        if available_quantity ≥ u32_cast order.quantity then some true
        else canFillLoop bk levels order available_quantity rest

/-- `can_fill_completely` (lines 428–455): Buy sums ask liquidity over
`0..=order.price` ascending, Sell sums bid liquidity over
`(order.price..bids.len()).rev()`; early-returns `true` when the running
total reaches the order quantity.  No mutation. -/
def can_fill_completely (bk : FixedPriceOrderBook) (order : Order) : Option Bool :=
  match order.order_side with
  | .Buy => canFillLoop bk bk.asks order 0 (List.range (order.price + 1))
  | .Sell =>
    canFillLoop bk bk.bids order 0
      ((List.range' order.price (bk.bids.length - order.price)).reverse)

/-- `fill_fill_or_kill_order` (lines 247–257). -/
def fill_fill_or_kill_order (bk : FixedPriceOrderBook) (order : Order) :
    Option (FixedPriceOrderBook × Except OrderBookError (Order × List OrderFill)) :=
  match can_fill_completely bk order with
  | none => none
  | some false => some (bk, .error .CannotFillCompletely)
  | some true => fill_limit_order bk order

/-- `recalculate_best_bid(order_price)` (lines 391–408): raise the cached
best bid if the new price beats it (always returns `Ok(())`). -/
def recalculate_best_bid (bk : FixedPriceOrderBook) (order_price : Nat) :
    FixedPriceOrderBook :=
  match bk.best_bid_index with
  | some current_best =>
    if order_price > current_best then { bk with best_bid_index := some order_price }
    else bk
  | none => { bk with best_bid_index := some order_price }

/-- `recalculate_best_ask(order_price)` (lines 410–425): lower the cached
best ask if the new price beats it. -/
def recalculate_best_ask (bk : FixedPriceOrderBook) (order_price : Nat) :
    FixedPriceOrderBook :=
  match bk.best_ask_index with
  | some current_best =>
    if order_price < current_best then { bk with best_ask_index := some order_price }
    else bk
  | none => { bk with best_ask_index := some order_price }

/-- `rest_remaining_limit_order(order, partially_filled)` (lines 334–389).
When the level queue is missing (`price ≥ len`), the source builds a fresh
queue and calls `Vec::insert(price, queue)`, which panics unless
`price == len`. -/
def rest_remaining_limit_order (bk : FixedPriceOrderBook) (order : Order)
    (partially_filled : Bool) :
    Option (FixedPriceOrderBook × Except OrderBookError Unit) :=
  if order.order_type ≠ .Limit then
    some (bk, .error .NonLimitOrderRestAttempt)
  else
    let order := { order with
      order_status := if partially_filled then OrderStatus.PartiallyFilled else .Active }
    match order.order_side with
    | .Buy =>
      let bk := recalculate_best_bid bk order.price
      match bk.bids[order.price]? with
      | some queue =>
        let (ledger, order_index) := slabInsert bk.order_ledger order
        some ({ bk with
            order_ledger := ledger
            bids := bk.bids.set order.price (queue ++ [order_index])
            index_mappings := mapInsert bk.index_mappings order.order_id order_index },
          .ok ())
      | none =>
        if order.price = bk.bids.length then
          let (ledger, order_index) := slabInsert bk.order_ledger order
          some ({ bk with
              order_ledger := ledger
              bids := bk.bids ++ [[order_index]]
              index_mappings := mapInsert bk.index_mappings order.order_id order_index },
            .ok ())
        else none
    | .Sell =>
      let bk := recalculate_best_ask bk order.price
      match bk.asks[order.price]? with
      | some queue =>
        let (ledger, order_index) := slabInsert bk.order_ledger order
        some ({ bk with
            order_ledger := ledger
            asks := bk.asks.set order.price (queue ++ [order_index])
            index_mappings := mapInsert bk.index_mappings order.order_id order_index },
          .ok ())
      | none =>
        if order.price = bk.asks.length then
          let (ledger, order_index) := slabInsert bk.order_ledger order
          some ({ bk with
              order_ledger := ledger
              asks := bk.asks ++ [[order_index]]
              index_mappings := mapInsert bk.index_mappings order.order_id order_index },
            .ok ())
        else none

/-- `execute_fill_by_order_type(order)` (lines 170–199). -/
def execute_fill_by_order_type (bk : FixedPriceOrderBook) (order : Order) :
    Option (FixedPriceOrderBook × Except OrderBookError Unit) :=
  match order.order_type with
  | .Limit =>
    match fill_limit_order bk order with
    | none => none
    | some (bk, .error e) => some (bk, .error e)
    | some (bk, .ok (order, fills)) =>
      let partially_filled := decide (fills.length > 0)
      if 0 < order.quantity then rest_remaining_limit_order bk order partially_filled
      else some (bk, .ok ())
  | .Market =>
    match fill_market_order bk order with
    | none => none
    | some (bk, .error e) => some (bk, .error e)
    | some (bk, .ok (order, _fills)) =>
      if 0 < order.quantity then some (bk, .error .InsufficientLiquidity)
      else some (bk, .ok ())
  | .ImmediateOrCancel =>
    match fill_immediate_or_cancel_order bk order with
    | none => none
    | some (bk, .error e) => some (bk, .error e)
    | some (bk, .ok _) => some (bk, .ok ())
  | .FillOrKill =>
    match fill_fill_or_kill_order bk order with
    | none => none
    | some (bk, .error e) => some (bk, .error e)
    | some (bk, .ok _) => some (bk, .ok ())

/-- `add_order(order)` (lines 116–126): bounds-check the price tick against
`self.bids.len()` and forward to `execute_fill_by_order_type`. -/
def add_order (bk : FixedPriceOrderBook) (order : Order) :
    Option (FixedPriceOrderBook × Except OrderBookError Unit) :=
  if order.price ≥ bk.bids.length then
    some (bk, .error .PriceOutOfRange)
  else
    execute_fill_by_order_type bk order

/-- `cancel_order(order_id)` (lines 128–162).  Notably the
`order_id → ledger index` mapping is looked up (panicking if absent) but
never removed. -/
def cancel_order (bk : FixedPriceOrderBook) (order_id : Nat) :
    Option (FixedPriceOrderBook × Except OrderBookError Unit) :=
  if ¬ bk.order_ledger.any (fun slot =>
      match slot with
      | some order => order.order_id = order_id
      | none => false) then
    some (bk, .error .OrderNotFound)
  else
    match bk.index_mappings.lookup order_id with
    | none => none
    | some ledger_index =>
      match slabGet bk.order_ledger ledger_index with
      | none => none
      | some order =>
        if order.price ≥ bk.bids.length then
          some (bk, .error .PriceOutOfRange)
        else
          match order.order_side with
          | .Buy =>
            match bk.bids[order.price]? with
            | some queue =>
              some ({ bk with
                  bids := bk.bids.set order.price
                    (queue.filter (fun idx => idx ≠ ledger_index))
                  order_ledger := slabRemove bk.order_ledger ledger_index },
                .ok ())
            | none => some (bk, .error .OrderNotFound)
          | .Sell =>
            match bk.asks[order.price]? with
            | some queue =>
              some ({ bk with
                  asks := bk.asks.set order.price
                    (queue.filter (fun idx => idx ≠ ledger_index))
                  order_ledger := slabRemove bk.order_ledger ledger_index },
                .ok ())
            | none => some (bk, .error .OrderNotFound)

/-- `modify_order(order_id, order)` (lines 164–167): cancel then add. -/
def modify_order (bk : FixedPriceOrderBook) (order_id : Nat) (order : Order) :
    Option (FixedPriceOrderBook × Except OrderBookError Unit) :=
  match cancel_order bk order_id with
  | none => none
  | some (bk, .error e) => some (bk, .error e)
  | some (bk, .ok ()) => add_order bk order

/-- `FixedPriceOrderBook::new(config)` (lines 21–51): allocate
`(max - min) / tick + 1` empty levels per side and start with an empty
ledger, mapping, history and `None` BBO.  There is no validation of the
config; `tick_size = 0` makes the integer division panic (`none`), and
`min_price > max_price` underflows the `u32` subtraction (truncated `Nat`
subtraction here; the theorems about `new` assume `min ≤ max`). -/
def FixedPriceOrderBook.new (config : FixedPriceOrderBookConfig) :
    Option FixedPriceOrderBook :=
  if config.tick_size = 0 then none
  else
    let vec_capacity := (config.max_price - config.min_price) / config.tick_size
    some
      { config := config
        bids := List.replicate (vec_capacity + 1) []
        asks := List.replicate (vec_capacity + 1) []
        order_ledger := []
        index_mappings := []
        trade_history := []
        best_bid_index := none
        best_ask_index := none
        clock := 0 }

/-! ### Well-formedness of book states

The claims about matching quantify over books whose resting state is
consistent: every index in a level queue resolves to a live ledger order
whose price is that level and whose `i32` quantity is positive, no index
rests in two queues, and a cached best-bid (best-ask) price is an upper
(lower) bound on every non-empty bid (ask) level — which is how every book
reachable from `new` looks, since `recalculate_best_bid` /
`recalculate_best_ask` run at every rest. -/

/-- Slot `idx` of the ledger holds a live order of price `p` with a positive
`i32` quantity. -/
def liveOrderAt (ledger : List (Option Order)) (p idx : Nat) : Prop :=
  ∃ o, slabGet ledger idx = some o ∧ o.price = p ∧ 0 < o.quantity ∧ o.quantity < 2 ^ 31

instance (ledger : List (Option Order)) (p idx : Nat) :
    Decidable (liveOrderAt ledger p idx) :=
  match h : slabGet ledger idx with
  | none => isFalse (by simp [liveOrderAt, h])
  | some o =>
    decidable_of_iff (o.price = p ∧ 0 < o.quantity ∧ o.quantity < 2 ^ 31)
      (by simp [liveOrderAt, h])

/-- Every queue entry of every level is live at that level's price. -/
def levelsWF (ledger : List (Option Order)) (levels : List (List Nat)) : Prop :=
  ∀ pq ∈ levels.enum, ∀ idx ∈ pq.2, liveOrderAt ledger pq.1 idx

instance (ledger : List (Option Order)) (levels : List (List Nat)) :
    Decidable (levelsWF ledger levels) := by
  unfold levelsWF; infer_instance

/-- Well-formed book state. -/
def WF (bk : FixedPriceOrderBook) : Prop :=
  bk.asks.length = bk.bids.length ∧
  0 < bk.bids.length ∧
  levelsWF bk.order_ledger bk.bids ∧
  levelsWF bk.order_ledger bk.asks ∧
  (bk.bids.flatten ++ bk.asks.flatten).Nodup ∧
  (∀ b ∈ bk.best_bid_index.toList, ∀ pq ∈ bk.bids.enum, pq.2 ≠ [] → pq.1 ≤ b) ∧
  (∀ a ∈ bk.best_ask_index.toList, ∀ pq ∈ bk.asks.enum, pq.2 ≠ [] → a ≤ pq.1)

instance (bk : FixedPriceOrderBook) : Decidable (WF bk) := by
  unfold WF; infer_instance

/-- Total signed quantity of the fills in a list. -/
def fillsQty (fills : List OrderFill) : Int :=
  (fills.map (fun f => (f.quantity : Int))).sum

/-- Total live quantity referenced by a queue of ledger indices. -/
def queueTotal (ledger : List (Option Order)) (queue : List Nat) : Int :=
  (queue.map (fun idx =>
    match slabGet ledger idx with
    | some o => o.quantity
    | none => 0)).sum

/-- Total live quantity at level `i`. -/
def levelTotal (ledger : List (Option Order)) (levels : List (List Nat)) (i : Nat) : Int :=
  queueTotal ledger (levels[i]?.getD [])

/-- Total live quantity over a list of level indices. -/
def availQty (ledger : List (Option Order)) (levels : List (List Nat)) (L : List Nat) : Int :=
  (L.map (levelTotal ledger levels)).sum

/-! ### Arithmetic and list helper lemmas -/

theorem u32_cast_int {q : Int} (h0 : 0 ≤ q) (h1 : q < 2 ^ 32) :
    (u32_cast q : Int) = q := by
  unfold u32_cast
  rw [Int.emod_eq_of_lt h0 h1, Int.toNat_of_nonneg h0]

theorem fillsQty_nil : fillsQty [] = 0 := rfl

theorem fillsQty_cons (f : OrderFill) (fs : List OrderFill) :
    fillsQty (f :: fs) = (f.quantity : Int) + fillsQty fs := by
  simp [fillsQty]

theorem fillsQty_append (a b : List OrderFill) :
    fillsQty (a ++ b) = fillsQty a + fillsQty b := by
  simp [fillsQty]

theorem slabGet_lt_length {ledger : List (Option Order)} {i : Nat} {o : Order}
    (h : slabGet ledger i = some o) : i < ledger.length := by
  unfold slabGet at h
  rcases hx : ledger[i]? with _ | slot
  · rw [hx] at h; exact absurd h (by simp)
  · exact (List.getElem?_eq_some_iff.mp hx).1

theorem slabGet_eq_ledger_get {ledger : List (Option Order)} {i : Nat} {o : Order} :
    slabGet ledger i = some o ↔ ledger[i]? = some (some o) := by
  unfold slabGet
  rcases hx : ledger[i]? with _ | slot <;> simp

theorem slabGet_set_ne (ledger : List (Option Order)) (i j : Nat) (v : Option Order)
    (h : j ≠ i) : slabGet (ledger.set i v) j = slabGet ledger j := by
  unfold slabGet
  rw [List.getElem?_set_ne (by omega)]

theorem slabGet_remove_self (ledger : List (Option Order)) (i : Nat) :
    slabGet (slabRemove ledger i) i = none := by
  unfold slabRemove slabGet
  rcases Nat.lt_or_ge i ledger.length with h | h
  · rw [List.getElem?_set_self h]
  · rw [List.getElem?_eq_none (by simpa using h)]

theorem slabGet_remove_ne (ledger : List (Option Order)) (i j : Nat) (h : j ≠ i) :
    slabGet (slabRemove ledger i) j = slabGet ledger j :=
  slabGet_set_ne ledger i j none h

theorem slabGet_set_self {ledger : List (Option Order)} {i : Nat}
    (h : i < ledger.length) (o : Order) :
    slabGet (ledger.set i (some o)) i = some o := by
  unfold slabGet
  rw [List.getElem?_set_self h]

theorem slabInsert_spec (ledger : List (Option Order)) (o : Order) :
    slabGet (slabInsert ledger o).1 (slabInsert ledger o).2 = some o ∧
    ∀ j, j ≠ (slabInsert ledger o).2 →
      slabGet (slabInsert ledger o).1 j = slabGet ledger j := by
  induction ledger with
  | nil =>
    refine ⟨by simp [slabInsert, slabGet], fun j hj => ?_⟩
    match j, hj with
    | j + 1, _ => simp [slabInsert, slabGet]
  | cons slot rest ih =>
    match slot with
    | none =>
      refine ⟨by simp [slabInsert, slabGet], fun j hj => ?_⟩
      match j, hj with
      | j + 1, _ => simp [slabInsert, slabGet]
    | some x =>
      constructor
      · show slabGet (some x :: (slabInsert rest o).1) ((slabInsert rest o).2 + 1) = some o
        simpa [slabGet] using ih.1
      · intro j hj
        show slabGet (some x :: (slabInsert rest o).1) j = slabGet (some x :: rest) j
        match j with
        | 0 => simp [slabGet]
        | j + 1 =>
          have := ih.2 j (by intro h; exact hj (by simp [slabInsert, h]))
          simpa [slabGet] using this

theorem queueTotal_nil (ledger : List (Option Order)) : queueTotal ledger [] = 0 := rfl

theorem queueTotal_cons (ledger : List (Option Order)) (i : Nat) (q : List Nat) :
    queueTotal ledger (i :: q) =
      (match slabGet ledger i with | some o => o.quantity | none => 0) + queueTotal ledger q := by
  simp [queueTotal]

theorem queueTotal_congr {l l' : List (Option Order)} {q : List Nat}
    (h : ∀ idx ∈ q, slabGet l' idx = slabGet l idx) :
    queueTotal l' q = queueTotal l q := by
  induction q with
  | nil => rfl
  | cons i rest ih =>
    rw [queueTotal_cons, queueTotal_cons, h i (by simp),
      ih (fun idx hx => h idx (by simp [hx]))]

theorem queueTotal_nonneg {ledger : List (Option Order)} {p : Nat} {q : List Nat}
    (h : ∀ idx ∈ q, liveOrderAt ledger p idx) : 0 ≤ queueTotal ledger q := by
  induction q with
  | nil => simp [queueTotal_nil]
  | cons i rest ih =>
    rw [queueTotal_cons]
    obtain ⟨o, ho, -, hq, -⟩ := h i (by simp)
    have := ih (fun idx hx => h idx (by simp [hx]))
    rw [ho]
    simp only []
    omega

/-! ### Behaviour of `fill_order` and the level-draining loop -/

/-- Book fields that `fill_order` and the draining loop leave untouched
(everything except the ledger and the clock). -/
def sameFrame (bk bk' : FixedPriceOrderBook) : Prop :=
  bk'.bids = bk.bids ∧ bk'.asks = bk.asks ∧ bk'.trade_history = bk.trade_history ∧
  bk'.index_mappings = bk.index_mappings ∧ bk'.best_bid_index = bk.best_bid_index ∧
  bk'.best_ask_index = bk.best_ask_index ∧ bk'.config = bk.config

theorem sameFrame_refl (bk : FixedPriceOrderBook) : sameFrame bk bk :=
  ⟨rfl, rfl, rfl, rfl, rfl, rfl, rfl⟩

theorem sameFrame_trans {bk1 bk2 bk3 : FixedPriceOrderBook}
    (h12 : sameFrame bk1 bk2) (h23 : sameFrame bk2 bk3) : sameFrame bk1 bk3 := by
  obtain ⟨a1, a2, a3, a4, a5, a6, a7⟩ := h12
  obtain ⟨b1, b2, b3, b4, b5, b6, b7⟩ := h23
  exact ⟨b1.trans a1, b2.trans a2, b3.trans a3, b4.trans a4,
    b5.trans a5, b6.trans a6, b7.trans a7⟩

/-- Full characterisation of one `fill_order` call on a live resting order,
covering the three cases of the source: exact match (resting removed),
resting larger (resting decremented and pushed back to the queue front),
resting smaller (resting removed, aggressor decremented). -/
theorem fill_order_spec {bk : FixedPriceOrderBook} {queue : List Nat} {a : Order}
    {ridx : Nat} {fills : List OrderFill} {r : Order}
    (hr : slabGet bk.order_ledger ridx = some r)
    (ha1 : 0 < a.quantity) :
    ∃ bk' queue' f flag,
      fill_order bk queue a ridx fills =
        some (bk', .ok (queue',
          { a with quantity := a.quantity - min r.quantity a.quantity },
          fills ++ [f], flag)) ∧
      f.price = r.price ∧
      (0 < r.quantity → r.quantity < 2 ^ 31 → a.quantity < 2 ^ 31 →
        (f.quantity : Int) = min r.quantity a.quantity) ∧
      sameFrame bk bk' ∧
      (∀ j, j ≠ ridx → slabGet bk'.order_ledger j = slabGet bk.order_ledger j) ∧
      ((a.quantity < r.quantity ∧ queue' = ridx :: queue ∧
          slabGet bk'.order_ledger ridx =
            some { r with quantity := r.quantity - a.quantity }) ∨
        (r.quantity ≤ a.quantity ∧ queue' = queue ∧
          slabGet bk'.order_ledger ridx = none))

    := by
  have hlen : ridx < bk.order_ledger.length := slabGet_lt_length hr
  by_cases h1 : r.quantity = a.quantity
  · have hmin : min r.quantity a.quantity = r.quantity := min_eq_left h1.le
    refine ⟨{ bk with
        clock := bk.clock + 1
        order_ledger := slabRemove bk.order_ledger ridx },
      queue,
      { aggressive_order_id := a.order_id, resting_order_id := r.order_id,
        price := r.price, quantity := u32_cast r.quantity, timestamp := bk.clock },
      true, ?_, rfl, ?_, ?_, ?_, Or.inr ⟨h1.le, rfl, slabGet_remove_self _ _⟩⟩
    · simp only [fill_order, hr, if_pos h1, tickClock, hmin]
    · intro hq1 hq2 _
      rw [hmin]
      exact u32_cast_int hq1.le (by norm_num at hq2 ⊢; omega)
    · exact ⟨rfl, rfl, rfl, rfl, rfl, rfl, rfl⟩
    · intro j hj
      exact slabGet_remove_ne _ _ _ hj
  · by_cases h2 : r.quantity > a.quantity
    · have hmin : min r.quantity a.quantity = a.quantity := min_eq_right h2.le
      refine ⟨{ bk with
          clock := bk.clock + 1
          order_ledger := bk.order_ledger.set ridx
            (some { r with quantity := r.quantity - a.quantity }) },
        ridx :: queue,
        { aggressive_order_id := a.order_id, resting_order_id := r.order_id,
          price := r.price, quantity := u32_cast a.quantity, timestamp := bk.clock },
        true, ?_, rfl, ?_, ?_, ?_,
        Or.inl ⟨h2, rfl, slabGet_set_self hlen _⟩⟩
      · simp only [fill_order, hr, if_neg h1, if_pos h2, tickClock, hmin]
        have : a.quantity - a.quantity = 0 := sub_self _
        simp only [this]
      · intro _ _ hq3
        rw [hmin]
        exact u32_cast_int ha1.le (by norm_num at hq3 ⊢; omega)
      · exact ⟨rfl, rfl, rfl, rfl, rfl, rfl, rfl⟩
      · intro j hj
        exact slabGet_set_ne _ _ _ _ hj
    · have h3 : r.quantity < a.quantity := by omega
      have hmin : min r.quantity a.quantity = r.quantity := min_eq_left h3.le
      refine ⟨{ bk with
          clock := bk.clock + 1
          order_ledger := slabRemove bk.order_ledger ridx },
        queue,
        { aggressive_order_id := a.order_id, resting_order_id := r.order_id,
          price := r.price, quantity := u32_cast r.quantity, timestamp := bk.clock },
        false, ?_, rfl, ?_, ?_, ?_, Or.inr ⟨h3.le, rfl, slabGet_remove_self _ _⟩⟩
      · simp only [fill_order, hr, if_neg h1, if_neg h2, tickClock, hmin]
      · intro hq1 hq2 _
        rw [hmin]
        exact u32_cast_int hq1.le (by norm_num at hq2 ⊢; omega)
      · exact ⟨rfl, rfl, rfl, rfl, rfl, rfl, rfl⟩
      · intro j hj
        exact slabGet_remove_ne _ _ _ hj

/-- Behaviour of the level-draining loop on a queue of live orders at price
`p`, given fuel at least `queue.length + 1` (as supplied by
`match_order_against_book`): the loop totалises, conserves quantity,
produces fills only at price `p`, touches no ledger slot outside the queue,
leaves the surviving queue live, and — when the aggressor exits with
positive quantity — has consumed the entire queue. -/
theorem fill_loop_spec (p : Nat) :
    ∀ (fuel : Nat) (bk : FixedPriceOrderBook) (a : Order) (queue : List Nat)
      (fills : List OrderFill),
      queue.length + 1 ≤ fuel →
      (∀ idx ∈ queue, liveOrderAt bk.order_ledger p idx) →
      queue.Nodup →
      0 ≤ a.quantity → a.quantity < 2 ^ 31 →
      ∃ bk' queue' nf,
        fill_loop fuel bk a queue fills =
          some (bk', .ok ({ a with quantity := a.quantity - fillsQty nf },
            queue', fills ++ nf)) ∧
        0 ≤ a.quantity - fillsQty nf ∧
        (∀ f ∈ nf, f.price = p ∧ 0 < (f.quantity : Int)) ∧
        sameFrame bk bk' ∧
        (∀ j, j ∉ queue → slabGet bk'.order_ledger j = slabGet bk.order_ledger j) ∧
        (∀ idx ∈ queue', idx ∈ queue) ∧ queue'.Nodup ∧
        (∀ idx ∈ queue', liveOrderAt bk'.order_ledger p idx) ∧
        (0 < a.quantity - fillsQty nf →
          queue' = [] ∧ fillsQty nf = queueTotal bk.order_ledger queue) := by
  intro fuel
  induction fuel with
  | zero => intro bk a queue fills hfuel; omega
  | succ fuel ih =>
    intro bk a queue fills hfuel hlive hnd ha1 ha2
    by_cases hguard : 0 < a.quantity ∧ queue ≠ []
    · match queue, hnd, hlive, hfuel, hguard with
      | h :: t, hnd, hlive, hfuel, hguard =>
        obtain ⟨r, hr, hrp, hr1, hr2⟩ := hlive h (by simp)
        obtain ⟨bk1, queue1, f, flag, heq, hfp, hfq, hframe, huntouched, hcases⟩ :=
          fill_order_spec hr hguard.1
        have hfq' : (f.quantity : Int) = min r.quantity a.quantity := hfq hr1 hr2 ha2
        have hstep : fill_loop (fuel + 1) bk a (h :: t) fills =
            fill_loop fuel bk1
              { a with quantity := a.quantity - min r.quantity a.quantity }
              queue1 (fills ++ [f]) := by
          simp only [fill_loop, if_pos hguard]
          rw [heq]
        have hht : h ∉ t := by
          intro hmem; exact (List.nodup_cons.mp hnd).1 hmem
        rcases hcases with ⟨hlt, hq1, hrset⟩ | ⟨hle, hq1, hrnone⟩
        · -- resting larger: aggressor zeroed, survivor pushed back to front
          have hmin : min r.quantity a.quantity = a.quantity := min_eq_right hlt.le
          have ha0 : a.quantity - min r.quantity a.quantity = 0 := by rw [hmin]; ring
          match fuel, hfuel with
          | fuel + 1, _ =>
            refine ⟨bk1, h :: t, [f], ?_, ?_, ?_, hframe, ?_, ?_, hnd, ?_, ?_⟩
            · rw [hstep, hq1]
              have hA1 :
                  ({ a with quantity := a.quantity - min r.quantity a.quantity } : Order) =
                    { a with quantity := 0 } := by
                rw [ha0]
              rw [hA1]
              rw [show fill_loop (fuel + 1) bk1 { a with quantity := 0 } (h :: t)
                  (fills ++ [f]) =
                  some (bk1, .ok ({ a with quantity := 0 }, h :: t, fills ++ [f]))
                from by simp [fill_loop]]
              rw [show a.quantity - fillsQty [f] = (0 : Int) from by
                rw [fillsQty_cons, fillsQty_nil, hfq', hmin]; ring]
            · rw [fillsQty_cons, fillsQty_nil, hfq', hmin]; simp
            · intro g hg
              rcases List.mem_singleton.mp hg with rfl
              refine ⟨by rw [hfp, hrp], ?_⟩
              rw [hfq', hmin]; exact hguard.1
            · intro j hj
              exact huntouched j (by intro hh; exact hj (by rw [hh]; simp))
            · intro idx hidx; exact hidx
            · intro idx hidx
              rcases List.mem_cons.mp hidx with rfl | hidx'
              · refine ⟨_, hrset, hrp, ?_, ?_⟩
                · show (0 : Int) < r.quantity - a.quantity
                  omega
                · show r.quantity - a.quantity < 2 ^ 31
                  omega
              · obtain ⟨o, ho, hop, ho1, ho2⟩ := hlive idx (by simp [hidx'])
                refine ⟨o, ?_, hop, ho1, ho2⟩
                rw [huntouched idx (by intro hh; exact hht (hh ▸ hidx'))]
                exact ho
            · intro hcontra
              rw [fillsQty_cons, fillsQty_nil, hfq', hmin] at hcontra
              omega
        · -- resting consumed entirely: recurse on the tail
          have hmin : min r.quantity a.quantity = r.quantity := min_eq_left hle
          have ht_live : ∀ idx ∈ t, liveOrderAt bk1.order_ledger p idx := by
            intro idx hidx
            obtain ⟨o, ho, hop, ho1, ho2⟩ := hlive idx (by simp [hidx])
            refine ⟨o, ?_, hop, ho1, ho2⟩
            rw [huntouched idx (by intro hh; exact hht (hh ▸ hidx))]
            exact ho
          obtain ⟨bk2, queue2, nf2, heq2, hpos2, hfprices2, hframe2, huntouched2,
              hsub2, hnd2, hlive2, hfull2⟩ :=
            ih bk1 { a with quantity := a.quantity - min r.quantity a.quantity }
              t (fills ++ [f]) (by simp at hfuel ⊢; omega) ht_live
              (List.nodup_cons.mp hnd).2 (by simp only [hmin]; omega)
              (by simp only [hmin]; omega)
          have harith : a.quantity - min r.quantity a.quantity - fillsQty nf2 =
              a.quantity - fillsQty (f :: nf2) := by
            rw [fillsQty_cons, hfq']; ring
          refine ⟨bk2, queue2, f :: nf2, ?_, ?_, ?_, sameFrame_trans hframe hframe2,
            ?_, ?_, hnd2, hlive2, ?_⟩
          · rw [hstep, hq1, heq2, harith]
            simp [List.append_assoc]
          · rw [← harith]; exact hpos2
          · intro g hg
            rcases List.mem_cons.mp hg with rfl | hg'
            · refine ⟨by rw [hfp, hrp], ?_⟩
              rw [hfq', hmin]; exact hr1
            · exact hfprices2 g hg'
          · intro j hj
            rw [huntouched2 j (by intro hh; exact hj (by simp [hh])),
              huntouched j (by intro hh; exact hj (by simp [hh]))]
          · intro idx hidx
            exact List.mem_cons_of_mem _ (hsub2 idx hidx)
          · intro hcontra
            rw [← harith] at hcontra
            obtain ⟨hq2e, hsum2⟩ := hfull2 hcontra
            refine ⟨hq2e, ?_⟩
            rw [fillsQty_cons, hfq', hmin, hsum2,
              queueTotal_congr (fun idx hidx =>
                huntouched idx (by intro hh; exact hht (hh ▸ hidx))),
              queueTotal_cons, hr]

    · refine ⟨bk, queue, [], ?_, ?_, by simp, sameFrame_refl bk, fun j _ => rfl,
        fun idx hidx => hidx, hnd, hlive, ?_⟩
      · simp only [fill_loop, if_neg hguard, fillsQty_nil, sub_zero,
          List.append_nil]
      · simp only [fillsQty_nil, sub_zero]; exact ha1
      · intro hcontra
        simp only [fillsQty_nil, sub_zero] at hcontra
        rw [not_and_or] at hguard
        rcases hguard with hg | hg
        · omega
        · have hqe : queue = [] := by simpa using hg
          subst hqe
          exact ⟨rfl, rfl⟩

/-! ### Level-list helper lemmas -/

theorem levelsWF_get {ledger : List (Option Order)} {levels : List (List Nat)}
    (hwf : levelsWF ledger levels) {i : Nat} {q : List Nat} (hq : levels[i]? = some q) :
    ∀ idx ∈ q, liveOrderAt ledger i idx :=
  hwf (i, q) (List.mem_enum_iff_getElem?.mpr hq)

theorem mem_flatten_of_get {levels : List (List Nat)} {i : Nat} {q : List Nat}
    (hq : levels[i]? = some q) {x : Nat} (hx : x ∈ q) : x ∈ levels.flatten := by
  refine List.mem_flatten.mpr ⟨q, ?_, hx⟩
  obtain ⟨h, rfl⟩ := List.getElem?_eq_some_iff.mp hq
  exact List.getElem_mem h

theorem flatten_nodup_disjoint {levels : List (List Nat)}
    (hnd : levels.flatten.Nodup) {i j : Nat} (hij : i ≠ j) {qi qj : List Nat}
    (hi : levels[i]? = some qi) (hj : levels[j]? = some qj) :
    ∀ x ∈ qi, x ∉ qj := by
  have hpw := (List.nodup_flatten.mp hnd).2
  obtain ⟨hilen, rfl⟩ := List.getElem?_eq_some_iff.mp hi
  obtain ⟨hjlen, rfl⟩ := List.getElem?_eq_some_iff.mp hj
  rw [List.pairwise_iff_get] at hpw
  rcases Nat.lt_or_ge i j with hlt | hge
  · exact hpw ⟨i, hilen⟩ ⟨j, hjlen⟩ hlt
  · have hlt : j < i := by omega
    exact fun x hx hx' => (hpw ⟨j, hjlen⟩ ⟨i, hilen⟩ hlt) hx' hx

theorem mem_flatten_set {levels : List (List Nat)} {i : Nat} {q q' : List Nat}
    (hq : levels[i]? = some q) (hsub : ∀ x ∈ q', x ∈ q) {y : Nat}
    (hy : y ∈ (levels.set i q').flatten) : y ∈ levels.flatten := by
  obtain ⟨s, hs, hys⟩ := List.mem_flatten.mp hy
  rcases List.mem_or_eq_of_mem_set hs with hs' | rfl
  · exact List.mem_flatten.mpr ⟨s, hs', hys⟩
  · exact mem_flatten_of_get hq (hsub y hys)

theorem flatten_nodup_set {levels : List (List Nat)}
    (hnd : levels.flatten.Nodup) {i : Nat} {q q' : List Nat}
    (hq : levels[i]? = some q) (hsub : ∀ x ∈ q', x ∈ q) (hnd' : q'.Nodup) :
    (levels.set i q').flatten.Nodup := by
  obtain ⟨hilen, hqi⟩ := List.getElem?_eq_some_iff.mp hq
  rw [List.nodup_flatten] at hnd ⊢
  refine ⟨?_, ?_⟩
  · intro s hs
    rcases List.mem_or_eq_of_mem_set hs with hs' | rfl
    · exact hnd.1 s hs'
    · exact hnd'
  · rw [List.pairwise_iff_get] at hnd ⊢
    intro k l hkl
    have hv : (k : Nat) < (l : Nat) := hkl
    have hklen : (k : Nat) < levels.length := by have := k.2; simpa using this
    have hllen : (l : Nat) < levels.length := by have := l.2; simpa using this
    have horig := hnd.2 ⟨(k : Nat), hklen⟩ ⟨(l : Nat), hllen⟩ (by simpa using hkl)
    simp only [List.get_eq_getElem] at horig ⊢
    simp only [List.getElem_set]
    by_cases hki : i = (k : Nat)
    · rw [if_pos hki]
      have hli : ¬ i = (l : Nat) := by omega
      rw [if_neg hli]
      have hq2 : levels[(k : Nat)]? = some q := by rw [← hki]; exact hq
      obtain ⟨hh, hgk⟩ := List.getElem?_eq_some_iff.mp hq2
      intro x hx hx'
      exact horig (by rw [hgk]; exact hsub x hx) hx'
    · rw [if_neg hki]
      by_cases hli : i = (l : Nat)
      · rw [if_pos hli]
        have hq2 : levels[(l : Nat)]? = some q := by rw [← hli]; exact hq
        obtain ⟨hh, hgl⟩ := List.getElem?_eq_some_iff.mp hq2
        intro x hx hx'
        exact horig hx (by rw [hgl]; exact hsub x hx')
      · rw [if_neg hli]
        exact horig

theorem availQty_cons (ledger : List (Option Order)) (levels : List (List Nat))
    (i : Nat) (L : List Nat) :
    availQty ledger levels (i :: L) =
      levelTotal ledger levels i + availQty ledger levels L := by
  simp [availQty]

theorem availQty_nil (ledger : List (Option Order)) (levels : List (List Nat)) :
    availQty ledger levels [] = 0 := rfl

theorem availQty_congr {l l' : List (Option Order)} {levels levels' : List (List Nat)}
    {L : List Nat}
    (h : ∀ j ∈ L, levels'[j]? = levels[j]? ∧
      ∀ x ∈ (levels[j]?.getD []), slabGet l' x = slabGet l x) :
    availQty l' levels' L = availQty l levels L := by
  unfold availQty
  refine congrArg _ (List.map_congr_left ?_)
  intro j hj
  unfold levelTotal
  rw [(h j hj).1]
  exact queueTotal_congr (h j hj).2

theorem availQty_nonneg {ledger : List (Option Order)} {levels : List (List Nat)}
    {L : List Nat} (hwf : levelsWF ledger levels) :
    0 ≤ availQty ledger levels L := by
  induction L with
  | nil => simp [availQty_nil]
  | cons i rest ih =>
    rw [availQty_cons]
    have : 0 ≤ levelTotal ledger levels i := by
      unfold levelTotal
      rcases hq : levels[i]? with _ | q
      · simp [queueTotal_nil]
      · simpa using queueTotal_nonneg (levelsWF_get hwf hq)
    omega

theorem fillsQty_nonneg {nf : List OrderFill}
    (h : ∀ f ∈ nf, 0 < (f.quantity : Int)) : 0 ≤ fillsQty nf := by
  induction nf with
  | nil => simp [fillsQty_nil]
  | cons f rest ih =>
    rw [fillsQty_cons]
    have h1 := h f (by simp)
    have h2 := ih (fun g hg => h g (by simp [hg]))
    omega

/-- Behaviour of the ask-side level sweep on a well-formed ask axis and a
duplicate-free index list: totality, conservation, fill prices confined to
(and ordered along) the visited levels, preservation of every other book
component, and full consumption of the visited liquidity whenever the
aggressor exits with quantity left over. -/
theorem match_levels_asks_spec :
    ∀ (L : List Nat) (bk : FixedPriceOrderBook) (a : Order) (fills : List OrderFill),
      levelsWF bk.order_ledger bk.asks →
      bk.asks.flatten.Nodup →
      L.Nodup →
      0 ≤ a.quantity → a.quantity < 2 ^ 31 →
      ∃ bk' nf,
        match_levels_asks bk a fills L =
          some (bk', .ok ({ a with quantity := a.quantity - fillsQty nf },
            fills ++ nf)) ∧
        0 ≤ a.quantity - fillsQty nf ∧
        (∀ f ∈ nf, f.price ∈ L ∧ 0 < (f.quantity : Int)) ∧
        (L.Pairwise (· < ·) → (nf.map OrderFill.price).Pairwise (· ≤ ·)) ∧
        bk'.bids = bk.bids ∧ bk'.trade_history = bk.trade_history ∧
        bk'.index_mappings = bk.index_mappings ∧
        bk'.best_bid_index = bk.best_bid_index ∧
        bk'.best_ask_index = bk.best_ask_index ∧ bk'.config = bk.config ∧
        bk'.asks.length = bk.asks.length ∧
        levelsWF bk'.order_ledger bk'.asks ∧ bk'.asks.flatten.Nodup ∧
        (0 < a.quantity - fillsQty nf →
          fillsQty nf = availQty bk.order_ledger bk.asks L) := by
  intro L
  induction L with
  | nil =>
    intro bk a fills hwf hnd _ ha1 _
    refine ⟨bk, [], ?_, ?_, by simp, by simp, rfl, rfl, rfl, rfl, rfl, rfl, rfl,
      hwf, hnd, ?_⟩
    · simp only [match_levels_asks, fillsQty_nil, sub_zero, List.append_nil]
    · simp only [fillsQty_nil, sub_zero]; exact ha1
    · intro _; simp [fillsQty_nil, availQty_nil]
  | cons i rest ih =>
    intro bk a fills hwf hnd hndL ha1 ha2
    by_cases hz : a.quantity = 0
    · refine ⟨bk, [], ?_, ?_, by simp, by simp, rfl, rfl, rfl, rfl, rfl, rfl, rfl,
        hwf, hnd, ?_⟩
      · simp only [match_levels_asks, if_pos hz, fillsQty_nil, sub_zero,
          List.append_nil]
      · simp only [fillsQty_nil, sub_zero]; exact ha1
      · intro hcontra
        simp only [fillsQty_nil, sub_zero] at hcontra
        omega
    · rcases hq : bk.asks[i]? with _ | queue
      · -- level slot missing: the loop `continue`s
        obtain ⟨bk', nf, heq, hpos, hprices, hmono, hb1, hb2, hb3, hb4, hb5, hb6,
          hb7, hb8, hb9, hfull⟩ :=
          ih bk a fills hwf hnd (List.nodup_cons.mp hndL).2 ha1 ha2
        refine ⟨bk', nf, ?_, hpos, ?_, ?_, hb1, hb2, hb3, hb4, hb5, hb6, hb7,
          hb8, hb9, ?_⟩
        · simp only [match_levels_asks, if_neg hz, hq]
          exact heq
        · exact fun f hf => ⟨List.mem_cons_of_mem _ (hprices f hf).1,
            (hprices f hf).2⟩
        · intro hpw
          exact hmono (List.Pairwise.of_cons hpw)
        · intro hrem
          rw [hfull hrem, availQty_cons]
          have : levelTotal bk.order_ledger bk.asks i = 0 := by
            unfold levelTotal
            rw [hq]
            rfl
          omega
      · -- drain level i, then continue over the remaining levels
        obtain ⟨hilen, hgi⟩ := List.getElem?_eq_some_iff.mp hq
        have hqmem : queue ∈ bk.asks := hgi ▸ List.getElem_mem hilen
        have hndq : queue.Nodup := (List.nodup_flatten.mp hnd).1 queue hqmem
        have hliveq : ∀ idx ∈ queue,
            liveOrderAt ({ bk with asks := bk.asks.set i [] } :
              FixedPriceOrderBook).order_ledger i idx :=
          levelsWF_get hwf hq
        obtain ⟨bk2, queue2, nf1, heq1, hpos1, hf1, hframe1, huntouched1, hsub1,
          hndq2, hlive2, hfull1⟩ :=
          fill_loop_spec i (queue.length + 1) { bk with asks := bk.asks.set i [] }
            a queue fills (Nat.le_refl _) hliveq hndq ha1 ha2
        have hasks2 : bk2.asks = bk.asks.set i [] := hframe1.2.1
        have hledger_untouched : ∀ j, j ∉ queue →
            slabGet bk2.order_ledger j = slabGet bk.order_ledger j :=
          huntouched1
        have hnf1_nonneg : 0 ≤ fillsQty nf1 :=
          fillsQty_nonneg (fun f hf => (hf1 f hf).2)
        have hset_asks : bk2.asks.set i queue2 = bk.asks.set i queue2 := by
          rw [hasks2, List.set_set]
        -- hypotheses for the recursive sweep over `rest`
        have hwf3 : levelsWF ({ bk2 with asks := bk2.asks.set i queue2 } :
            FixedPriceOrderBook).order_ledger
            ({ bk2 with asks := bk2.asks.set i queue2 } :
              FixedPriceOrderBook).asks := by
          intro pq hpq idx hidx
          have hpq' := List.mem_enum_iff_getElem?.mp hpq
          simp only at hpq' hidx
          rw [hset_asks] at hpq'
          by_cases hpi : pq.1 = i
          · rw [hpi] at hpq'
            rw [List.getElem?_set_self (by simpa using hilen)] at hpq'
            obtain ⟨o, ho, hop, ho1, ho2⟩ :=
              hlive2 idx (by rw [Option.some.inj hpq']; exact hidx)
            exact ⟨o, ho, by rw [hop, hpi], ho1, ho2⟩
          · rw [List.getElem?_set_ne (by omega)] at hpq'
            obtain ⟨o, ho, hop, ho1, ho2⟩ :=
              levelsWF_get hwf hpq' idx hidx
            refine ⟨o, ?_, hop, ho1, ho2⟩
            rw [hledger_untouched idx
              (flatten_nodup_disjoint hnd (by omega) hpq' hq idx hidx)]
            exact ho
        have hnd3 : ({ bk2 with asks := bk2.asks.set i queue2 } :
            FixedPriceOrderBook).asks.flatten.Nodup := by
          simp only
          rw [hset_asks]
          exact flatten_nodup_set hnd hq hsub1 hndq2
        obtain ⟨bk4, nf2, heq2, hpos2, hf2, hmono2, hc1, hc2, hc3, hc4, hc5, hc6,
          hc7, hc8, hc9, hfull2⟩ :=
          ih { bk2 with asks := bk2.asks.set i queue2 }
            { a with quantity := a.quantity - fillsQty nf1 } (fills ++ nf1)
            hwf3 hnd3 (List.nodup_cons.mp hndL).2 hpos1 (by simp only []; omega)
        have hiNotRest : i ∉ rest := (List.nodup_cons.mp hndL).1
        have harith : a.quantity - fillsQty nf1 - fillsQty nf2 =
            a.quantity - fillsQty (nf1 ++ nf2) := by
          rw [fillsQty_append]; ring
        refine ⟨bk4, nf1 ++ nf2, ?_, ?_, ?_, ?_, ?_, ?_, ?_, ?_, ?_, ?_, ?_,
          hc8, hc9, ?_⟩
        · simp only [match_levels_asks, if_neg hz, hq]
          rw [heq1]
          simp only []
          rw [heq2, harith, List.append_assoc]
        · rw [← harith]; exact hpos2
        · intro f hf
          rcases List.mem_append.mp hf with hf' | hf'
          · exact ⟨by rw [(hf1 f hf').1]; exact List.mem_cons_self i rest,
              (hf1 f hf').2⟩
          · exact ⟨List.mem_cons_of_mem _ (hf2 f hf').1, (hf2 f hf').2⟩
        · intro hpw
          rw [List.map_append, List.pairwise_append]
          refine ⟨?_, hmono2 (List.Pairwise.of_cons hpw), ?_⟩
          · rw [List.pairwise_map]
            refine List.pairwise_of_forall_mem_list ?_
            intro f hf g hg
            rw [(hf1 f hf).1, (hf1 g hg).1]
          · intro p hp p' hp'
            obtain ⟨f, hf, rfl⟩ := List.mem_map.mp hp
            obtain ⟨g, hg, rfl⟩ := List.mem_map.mp hp'
            rw [(hf1 f hf).1]
            have := (hf2 g hg).1
            have hlt := (List.pairwise_cons.mp hpw).1 g.price this
            omega
        · rw [hc1]; exact hframe1.1
        · rw [hc2]; exact hframe1.2.2.1
        · rw [hc3]; exact hframe1.2.2.2.1
        · rw [hc4]; exact hframe1.2.2.2.2.1
        · rw [hc5]; exact hframe1.2.2.2.2.2.1
        · rw [hc6]; exact hframe1.2.2.2.2.2.2
        · rw [hc7]
          show (bk2.asks.set i queue2).length = bk.asks.length
          rw [hset_asks, List.length_set]
        · intro hrem
          rw [← harith] at hrem
          have hrem1 : 0 < a.quantity - fillsQty nf1 := by
            have := fillsQty_nonneg (fun f hf => (hf2 f hf).2)
            omega
          obtain ⟨hq2nil, hsum1⟩ := hfull1 hrem1
          have hsum2 := hfull2 hrem
          rw [fillsQty_append, hsum1, hsum2, availQty_cons]
          have hlevel : queueTotal ({ bk with asks := bk.asks.set i [] } :
              FixedPriceOrderBook).order_ledger queue =
              levelTotal bk.order_ledger bk.asks i := by
            unfold levelTotal
            rw [hq]
            rfl
          have havail : availQty ({ bk2 with asks := bk2.asks.set i queue2 } :
              FixedPriceOrderBook).order_ledger
              ({ bk2 with asks := bk2.asks.set i queue2 } :
                FixedPriceOrderBook).asks rest =
              availQty bk.order_ledger bk.asks rest := by
            refine availQty_congr ?_
            intro j hj
            have hji : j ≠ i := fun hji => hiNotRest (hji ▸ hj)
            constructor
            · show (bk2.asks.set i queue2)[j]? = bk.asks[j]?
              rw [hset_asks, List.getElem?_set_ne (by omega)]
            · intro x hx
              rcases hjq : bk.asks[j]? with _ | qj
              · rw [hjq] at hx; simp at hx
              · rw [hjq] at hx
                rw [Option.getD_some] at hx
                exact hledger_untouched x
                  (flatten_nodup_disjoint hnd (by omega) hjq hq x hx)
          rw [hlevel, havail]

/-- Mirror of `match_levels_asks_spec` for the bid-side sweep (a Sell
aggressor walking the bid levels in the given order). -/
theorem match_levels_bids_spec :
    ∀ (L : List Nat) (bk : FixedPriceOrderBook) (a : Order) (fills : List OrderFill),
      levelsWF bk.order_ledger bk.bids →
      bk.bids.flatten.Nodup →
      L.Nodup →
      0 ≤ a.quantity → a.quantity < 2 ^ 31 →
      ∃ bk' nf,
        match_levels_bids bk a fills L =
          some (bk', .ok ({ a with quantity := a.quantity - fillsQty nf },
            fills ++ nf)) ∧
        0 ≤ a.quantity - fillsQty nf ∧
        (∀ f ∈ nf, f.price ∈ L ∧ 0 < (f.quantity : Int)) ∧
        (L.Pairwise (· > ·) → (nf.map OrderFill.price).Pairwise (· ≥ ·)) ∧
        bk'.asks = bk.asks ∧ bk'.trade_history = bk.trade_history ∧
        bk'.index_mappings = bk.index_mappings ∧
        bk'.best_bid_index = bk.best_bid_index ∧
        bk'.best_ask_index = bk.best_ask_index ∧ bk'.config = bk.config ∧
        bk'.bids.length = bk.bids.length ∧
        levelsWF bk'.order_ledger bk'.bids ∧ bk'.bids.flatten.Nodup ∧
        (0 < a.quantity - fillsQty nf →
          fillsQty nf = availQty bk.order_ledger bk.bids L) := by
  intro L
  induction L with
  | nil =>
    intro bk a fills hwf hnd _ ha1 _
    refine ⟨bk, [], ?_, ?_, by simp, by simp, rfl, rfl, rfl, rfl, rfl, rfl, rfl,
      hwf, hnd, ?_⟩
    · simp only [match_levels_bids, fillsQty_nil, sub_zero, List.append_nil]
    · simp only [fillsQty_nil, sub_zero]; exact ha1
    · intro _; simp [fillsQty_nil, availQty_nil]
  | cons i rest ih =>
    intro bk a fills hwf hnd hndL ha1 ha2
    by_cases hz : a.quantity = 0
    · refine ⟨bk, [], ?_, ?_, by simp, by simp, rfl, rfl, rfl, rfl, rfl, rfl, rfl,
        hwf, hnd, ?_⟩
      · simp only [match_levels_bids, if_pos hz, fillsQty_nil, sub_zero,
          List.append_nil]
      · simp only [fillsQty_nil, sub_zero]; exact ha1
      · intro hcontra
        simp only [fillsQty_nil, sub_zero] at hcontra
        omega
    · rcases hq : bk.bids[i]? with _ | queue
      · -- level slot missing: the loop `continue`s
        obtain ⟨bk', nf, heq, hpos, hprices, hmono, hb1, hb2, hb3, hb4, hb5, hb6,
          hb7, hb8, hb9, hfull⟩ :=
          ih bk a fills hwf hnd (List.nodup_cons.mp hndL).2 ha1 ha2
        refine ⟨bk', nf, ?_, hpos, ?_, ?_, hb1, hb2, hb3, hb4, hb5, hb6, hb7,
          hb8, hb9, ?_⟩
        · simp only [match_levels_bids, if_neg hz, hq]
          exact heq
        · exact fun f hf => ⟨List.mem_cons_of_mem _ (hprices f hf).1,
            (hprices f hf).2⟩
        · intro hpw
          exact hmono (List.Pairwise.of_cons hpw)
        · intro hrem
          rw [hfull hrem, availQty_cons]
          have : levelTotal bk.order_ledger bk.bids i = 0 := by
            unfold levelTotal
            rw [hq]
            rfl
          omega
      · -- drain level i, then continue over the remaining levels
        obtain ⟨hilen, hgi⟩ := List.getElem?_eq_some_iff.mp hq
        have hqmem : queue ∈ bk.bids := hgi ▸ List.getElem_mem hilen
        have hndq : queue.Nodup := (List.nodup_flatten.mp hnd).1 queue hqmem
        have hliveq : ∀ idx ∈ queue,
            liveOrderAt ({ bk with bids := bk.bids.set i [] } :
              FixedPriceOrderBook).order_ledger i idx :=
          levelsWF_get hwf hq
        obtain ⟨bk2, queue2, nf1, heq1, hpos1, hf1, hframe1, huntouched1, hsub1,
          hndq2, hlive2, hfull1⟩ :=
          fill_loop_spec i (queue.length + 1) { bk with bids := bk.bids.set i [] }
            a queue fills (Nat.le_refl _) hliveq hndq ha1 ha2
        have hbids2 : bk2.bids = bk.bids.set i [] := hframe1.1
        have hledger_untouched : ∀ j, j ∉ queue →
            slabGet bk2.order_ledger j = slabGet bk.order_ledger j :=
          huntouched1
        have hnf1_nonneg : 0 ≤ fillsQty nf1 :=
          fillsQty_nonneg (fun f hf => (hf1 f hf).2)
        have hset_bids : bk2.bids.set i queue2 = bk.bids.set i queue2 := by
          rw [hbids2, List.set_set]
        -- hypotheses for the recursive sweep over `rest`
        have hwf3 : levelsWF ({ bk2 with bids := bk2.bids.set i queue2 } :
            FixedPriceOrderBook).order_ledger
            ({ bk2 with bids := bk2.bids.set i queue2 } :
              FixedPriceOrderBook).bids := by
          intro pq hpq idx hidx
          have hpq' := List.mem_enum_iff_getElem?.mp hpq
          simp only at hpq' hidx
          rw [hset_bids] at hpq'
          by_cases hpi : pq.1 = i
          · rw [hpi] at hpq'
            rw [List.getElem?_set_self (by simpa using hilen)] at hpq'
            obtain ⟨o, ho, hop, ho1, ho2⟩ :=
              hlive2 idx (by rw [Option.some.inj hpq']; exact hidx)
            exact ⟨o, ho, by rw [hop, hpi], ho1, ho2⟩
          · rw [List.getElem?_set_ne (by omega)] at hpq'
            obtain ⟨o, ho, hop, ho1, ho2⟩ :=
              levelsWF_get hwf hpq' idx hidx
            refine ⟨o, ?_, hop, ho1, ho2⟩
            rw [hledger_untouched idx
              (flatten_nodup_disjoint hnd (by omega) hpq' hq idx hidx)]
            exact ho
        have hnd3 : ({ bk2 with bids := bk2.bids.set i queue2 } :
            FixedPriceOrderBook).bids.flatten.Nodup := by
          simp only
          rw [hset_bids]
          exact flatten_nodup_set hnd hq hsub1 hndq2
        obtain ⟨bk4, nf2, heq2, hpos2, hf2, hmono2, hc1, hc2, hc3, hc4, hc5, hc6,
          hc7, hc8, hc9, hfull2⟩ :=
          ih { bk2 with bids := bk2.bids.set i queue2 }
            { a with quantity := a.quantity - fillsQty nf1 } (fills ++ nf1)
            hwf3 hnd3 (List.nodup_cons.mp hndL).2 hpos1 (by simp only []; omega)
        have hiNotRest : i ∉ rest := (List.nodup_cons.mp hndL).1
        have harith : a.quantity - fillsQty nf1 - fillsQty nf2 =
            a.quantity - fillsQty (nf1 ++ nf2) := by
          rw [fillsQty_append]; ring
        refine ⟨bk4, nf1 ++ nf2, ?_, ?_, ?_, ?_, ?_, ?_, ?_, ?_, ?_, ?_, ?_,
          hc8, hc9, ?_⟩
        · simp only [match_levels_bids, if_neg hz, hq]
          rw [heq1]
          simp only []
          rw [heq2, harith, List.append_assoc]
        · rw [← harith]; exact hpos2
        · intro f hf
          rcases List.mem_append.mp hf with hf' | hf'
          · exact ⟨by rw [(hf1 f hf').1]; exact List.mem_cons_self i rest,
              (hf1 f hf').2⟩
          · exact ⟨List.mem_cons_of_mem _ (hf2 f hf').1, (hf2 f hf').2⟩
        · intro hpw
          rw [List.map_append, List.pairwise_append]
          refine ⟨?_, hmono2 (List.Pairwise.of_cons hpw), ?_⟩
          · rw [List.pairwise_map]
            refine List.pairwise_of_forall_mem_list ?_
            intro f hf g hg
            rw [(hf1 f hf).1, (hf1 g hg).1]
          · intro p hp p' hp'
            obtain ⟨f, hf, rfl⟩ := List.mem_map.mp hp
            obtain ⟨g, hg, rfl⟩ := List.mem_map.mp hp'
            rw [(hf1 f hf).1]
            have := (hf2 g hg).1
            have hlt := (List.pairwise_cons.mp hpw).1 g.price this
            omega
        · rw [hc1]; exact hframe1.2.1
        · rw [hc2]; exact hframe1.2.2.1
        · rw [hc3]; exact hframe1.2.2.2.1
        · rw [hc4]; exact hframe1.2.2.2.2.1
        · rw [hc5]; exact hframe1.2.2.2.2.2.1
        · rw [hc6]; exact hframe1.2.2.2.2.2.2
        · rw [hc7]
          show (bk2.bids.set i queue2).length = bk.bids.length
          rw [hset_bids, List.length_set]
        · intro hrem
          rw [← harith] at hrem
          have hrem1 : 0 < a.quantity - fillsQty nf1 := by
            have := fillsQty_nonneg (fun f hf => (hf2 f hf).2)
            omega
          obtain ⟨hq2nil, hsum1⟩ := hfull1 hrem1
          have hsum2 := hfull2 hrem
          rw [fillsQty_append, hsum1, hsum2, availQty_cons]
          have hlevel : queueTotal ({ bk with bids := bk.bids.set i [] } :
              FixedPriceOrderBook).order_ledger queue =
              levelTotal bk.order_ledger bk.bids i := by
            unfold levelTotal
            rw [hq]
            rfl
          have havail : availQty ({ bk2 with bids := bk2.bids.set i queue2 } :
              FixedPriceOrderBook).order_ledger
              ({ bk2 with bids := bk2.bids.set i queue2 } :
                FixedPriceOrderBook).bids rest =
              availQty bk.order_ledger bk.bids rest := by
            refine availQty_congr ?_
            intro j hj
            have hji : j ≠ i := fun hji => hiNotRest (hji ▸ hj)
            constructor
            · show (bk2.bids.set i queue2)[j]? = bk.bids[j]?
              rw [hset_bids, List.getElem?_set_ne (by omega)]
            · intro x hx
              rcases hjq : bk.bids[j]? with _ | qj
              · rw [hjq] at hx; simp at hx
              · rw [hjq] at hx
                rw [Option.getD_some] at hx
                exact hledger_untouched x
                  (flatten_nodup_disjoint hnd (by omega) hjq hq x hx)
          rw [hlevel, havail]

/-! ### Specs of the per-type fill flows -/

/-- The ask-side index range actually scanned by `fill_limit_order` for a Buy
order (the start index is overridden by the cached best ask). -/
def limitScanAsks (bk : FixedPriceOrderBook) (order : Order) : List Nat :=
  List.range' (bk.best_ask_index.getD 0)
    (order.price + 1 - bk.best_ask_index.getD 0)

/-- The bid-side index range actually scanned by `fill_limit_order` for a
Sell order, in traversal (descending) order. -/
def limitScanBids (bk : FixedPriceOrderBook) (order : Order) : List Nat :=
  (List.range' order.price
    (bk.best_bid_index.getD (bk.bids.length - 1) + 1 - order.price)).reverse

/-- Behaviour of `fill_limit_order` on a well-formed book: totality,
quantity conservation into the returned (and recorded) fills, price
monotonicity per side, and preservation of the untouched components.  The
last two conjuncts record that a leftover implies the whole scanned range
was consumed (used by the fill-or-kill analysis). -/
theorem fill_limit_order_spec (bk : FixedPriceOrderBook) (order : Order)
    (hwf : WF bk) (ha1 : 0 ≤ order.quantity) (ha2 : order.quantity < 2 ^ 31) :
    ∃ bk' nf,
      fill_limit_order bk order =
        some (bk', .ok ({ order with quantity := order.quantity - fillsQty nf }, nf)) ∧
      bk'.trade_history = bk.trade_history ++ nf ∧
      0 ≤ order.quantity - fillsQty nf ∧
      (∀ f ∈ nf, 0 < (f.quantity : Int)) ∧
      (order.order_side = .Buy → (nf.map OrderFill.price).Pairwise (· ≤ ·)) ∧
      (order.order_side = .Sell → (nf.map OrderFill.price).Pairwise (· ≥ ·)) ∧
      bk'.index_mappings = bk.index_mappings ∧
      bk'.best_bid_index = bk.best_bid_index ∧
      bk'.best_ask_index = bk.best_ask_index ∧ bk'.config = bk.config ∧
      bk'.bids.length = bk.bids.length ∧ bk'.asks.length = bk.asks.length ∧
      (order.order_side = .Buy → bk'.bids = bk.bids ∧
        (0 < order.quantity - fillsQty nf →
          fillsQty nf = availQty bk.order_ledger bk.asks (limitScanAsks bk order))) ∧
      (order.order_side = .Sell → bk'.asks = bk.asks ∧
        (0 < order.quantity - fillsQty nf →
          fillsQty nf = availQty bk.order_ledger bk.bids (limitScanBids bk order))) := by
  obtain ⟨hlen, hpos, hbidswf, haskswf, hndall, hbb, hba⟩ := hwf
  have hasksnd : bk.asks.flatten.Nodup := (List.nodup_append.mp hndall).2.1
  have hbidsnd : bk.bids.flatten.Nodup := (List.nodup_append.mp hndall).1
  rcases hside : order.order_side with _ | _
  · -- Buy: scan the asks ascending
    obtain ⟨bk1, nf, heq, hpos1, hprices, hmono, hb1, hb2, hb3, hb4, hb5, hb6,
      hb7, _, _, hfull⟩ :=
      match_levels_asks_spec (limitScanAsks bk order) bk order [] haskswf hasksnd
        (List.nodup_range' _ _) ha1 ha2
    refine ⟨{ bk1 with trade_history := bk1.trade_history ++ nf }, nf, ?_, ?_,
      hpos1, fun f hf => (hprices f hf).2, ?_, ?_, hb3, hb4, hb5, hb6, ?_, ?_,
      ?_, ?_⟩
    · simp only [fill_limit_order, hside, match_order_against_book,
        eq_self_iff_true, if_true]
      rw [show List.range' (bk.best_ask_index.getD 0)
          (order.price + 1 - bk.best_ask_index.getD 0) =
          limitScanAsks bk order from rfl, heq]
      simp [hside]
    · show bk1.trade_history ++ nf = bk.trade_history ++ nf
      rw [hb2]
    · intro _
      exact hmono (List.pairwise_lt_range' _ _)
    · intro hcontra
      exact absurd hcontra (by simp)
    · show bk1.bids.length = bk.bids.length
      exact congrArg List.length hb1
    · show bk1.asks.length = bk.asks.length
      exact hb7
    · intro _
      exact ⟨hb1, hfull⟩
    · intro hcontra
      exact absurd hcontra (by simp)
  · -- Sell: scan the bids descending
    obtain ⟨bk1, nf, heq, hpos1, hprices, hmono, hb1, hb2, hb3, hb4, hb5, hb6,
      hb7, _, _, hfull⟩ :=
      match_levels_bids_spec (limitScanBids bk order) bk order [] hbidswf hbidsnd
        (List.nodup_reverse.mpr (List.nodup_range' _ _)) ha1 ha2
    refine ⟨{ bk1 with trade_history := bk1.trade_history ++ nf }, nf, ?_, ?_,
      hpos1, fun f hf => (hprices f hf).2, ?_, ?_, hb3, hb4, hb5, hb6, ?_, ?_,
      ?_, ?_⟩
    · simp only [fill_limit_order, hside, match_order_against_book,
        eq_self_iff_true, if_true]
      rw [show (List.range' order.price
          (bk.best_bid_index.getD (bk.bids.length - 1) + 1 - order.price)).reverse =
          limitScanBids bk order from rfl, heq]
      simp [hside]
    · show bk1.trade_history ++ nf = bk.trade_history ++ nf
      rw [hb2]
    · intro hcontra
      exact absurd hcontra (by simp)
    · intro _
      refine hmono ?_
      unfold limitScanBids
      rw [List.pairwise_reverse]
      exact List.pairwise_lt_range' _ _
    · show bk1.bids.length = bk.bids.length
      exact hb7
    · show bk1.asks.length = bk.asks.length
      exact congrArg List.length hb1
    · intro hcontra
      exact absurd hcontra (by simp)
    · intro _
      exact ⟨hb1, hfull⟩

/-- Behaviour of `fill_market_order` on a well-formed book: totality,
conservation, per-side price monotonicity of the recorded fills, and
preservation of the untouched components. -/
theorem fill_market_order_spec (bk : FixedPriceOrderBook) (order : Order)
    (hwf : WF bk) (ha1 : 0 ≤ order.quantity) (ha2 : order.quantity < 2 ^ 31) :
    ∃ bk' nf,
      fill_market_order bk order =
        some (bk', .ok ({ order with quantity := order.quantity - fillsQty nf }, nf)) ∧
      bk'.trade_history = bk.trade_history ++ nf ∧
      0 ≤ order.quantity - fillsQty nf ∧
      (∀ f ∈ nf, 0 < (f.quantity : Int)) ∧
      (order.order_side = .Buy → (nf.map OrderFill.price).Pairwise (· ≤ ·)) ∧
      (order.order_side = .Sell → (nf.map OrderFill.price).Pairwise (· ≥ ·)) ∧
      bk'.index_mappings = bk.index_mappings ∧
      bk'.best_bid_index = bk.best_bid_index ∧
      bk'.best_ask_index = bk.best_ask_index ∧ bk'.config = bk.config ∧
      bk'.bids.length = bk.bids.length ∧ bk'.asks.length = bk.asks.length := by
  obtain ⟨hlen, hpos, hbidswf, haskswf, hndall, hbb, hba⟩ := hwf
  have hasksnd : bk.asks.flatten.Nodup := (List.nodup_append.mp hndall).2.1
  have hbidsnd : bk.bids.flatten.Nodup := (List.nodup_append.mp hndall).1
  rcases hside : order.order_side with _ | _
  · obtain ⟨bk1, nf, heq, hpos1, hprices, hmono, hb1, hb2, hb3, hb4, hb5, hb6,
      hb7, _, _, _⟩ :=
      match_levels_asks_spec
        (List.range' (bk.best_ask_index.getD 0)
          (bk.asks.length - 1 + 1 - bk.best_ask_index.getD 0)) bk order []
        haskswf hasksnd (List.nodup_range' _ _) ha1 ha2
    refine ⟨{ bk1 with trade_history := bk1.trade_history ++ nf }, nf, ?_, ?_,
      hpos1, fun f hf => (hprices f hf).2, ?_, ?_, hb3, hb4, hb5, hb6, ?_, ?_⟩
    · simp only [fill_market_order, hside, match_order_against_book,
        eq_self_iff_true, if_true]
      rw [heq]
      simp [hside]
    · show bk1.trade_history ++ nf = bk.trade_history ++ nf
      rw [hb2]
    · intro _
      exact hmono (List.pairwise_lt_range' _ _)
    · intro hcontra
      exact absurd hcontra (by simp)
    · show bk1.bids.length = bk.bids.length
      exact congrArg List.length hb1
    · show bk1.asks.length = bk.asks.length
      exact hb7
  · obtain ⟨bk1, nf, heq, hpos1, hprices, hmono, hb1, hb2, hb3, hb4, hb5, hb6,
      hb7, _, _, _⟩ :=
      match_levels_bids_spec
        ((List.range' 0
          (bk.best_bid_index.getD (bk.bids.length - 1) + 1 - 0)).reverse) bk order []
        hbidswf hbidsnd (List.nodup_reverse.mpr (List.nodup_range' _ _)) ha1 ha2
    refine ⟨{ bk1 with trade_history := bk1.trade_history ++ nf }, nf, ?_, ?_,
      hpos1, fun f hf => (hprices f hf).2, ?_, ?_, hb3, hb4, hb5, hb6, ?_, ?_⟩
    · simp only [fill_market_order, hside, match_order_against_book,
        eq_self_iff_true, if_true]
      rw [heq]
      simp [hside]
    · show bk1.trade_history ++ nf = bk.trade_history ++ nf
      rw [hb2]
    · intro hcontra
      exact absurd hcontra (by simp)
    · intro _
      refine hmono ?_
      rw [List.pairwise_reverse]
      exact List.pairwise_lt_range' _ _
    · show bk1.bids.length = bk.bids.length
      exact hb7
    · show bk1.asks.length = bk.asks.length
      exact congrArg List.length hb1

/-! ### Soundness of `can_fill_completely` -/

theorem availQty_append (ledger : List (Option Order)) (levels : List (List Nat))
    (L1 L2 : List Nat) :
    availQty ledger levels (L1 ++ L2) =
      availQty ledger levels L1 + availQty ledger levels L2 := by
  simp [availQty]

theorem availQty_reverse (ledger : List (Option Order)) (levels : List (List Nat))
    (L : List Nat) :
    availQty ledger levels L.reverse = availQty ledger levels L := by
  unfold availQty
  rw [List.map_reverse, List.sum_reverse]

theorem availQty_zero {ledger : List (Option Order)} {levels : List (List Nat)}
    {L : List Nat} (h : ∀ j ∈ L, levelTotal ledger levels j = 0) :
    availQty ledger levels L = 0 := by
  unfold availQty
  refine List.sum_eq_zero ?_
  intro x hx
  obtain ⟨j, hj, rfl⟩ := List.mem_map.mp hx
  exact h j hj

theorem levelTotal_of_none {ledger : List (Option Order)} {levels : List (List Nat)}
    {j : Nat} (h : levels[j]? = none) : levelTotal ledger levels j = 0 := by
  unfold levelTotal
  rw [h]
  rfl

theorem levelTotal_of_nil {ledger : List (Option Order)} {levels : List (List Nat)}
    {j : Nat} (h : levels[j]? = some []) : levelTotal ledger levels j = 0 := by
  unfold levelTotal
  rw [h]
  rfl

/-- The per-level wrapped `u32` sum is defined on live queues and bounded by
the true (unwrapped) total. -/
theorem queueQuantitySum_spec {ledger : List (Option Order)} {p : Nat}
    {q : List Nat} (h : ∀ idx ∈ q, liveOrderAt ledger p idx) :
    ∃ s, queueQuantitySum ledger q = some s ∧ (s : Int) ≤ queueTotal ledger q := by
  induction q with
  | nil => exact ⟨0, rfl, by simp [queueTotal_nil]⟩
  | cons i rest ih =>
    obtain ⟨o, ho, hop, ho1, ho2⟩ := h i (by simp)
    obtain ⟨s, hs, hsle⟩ := ih (fun idx hx => h idx (by simp [hx]))
    refine ⟨(u32_cast o.quantity + s) % 2 ^ 32, ?_, ?_⟩
    · simp only [queueQuantitySum, ho, hs]
    · rw [queueTotal_cons, ho]
      have h1 : ((u32_cast o.quantity + s) % 2 ^ 32 : Nat) ≤ u32_cast o.quantity + s :=
        Nat.mod_le _ _
      have h2 : (u32_cast o.quantity : Int) = o.quantity :=
        u32_cast_int ho1.le (by norm_num at ho2 ⊢; omega)
      have h3 : (((u32_cast o.quantity + s) % 2 ^ 32 : Nat) : Int) ≤
          (u32_cast o.quantity : Int) + s := by
        push_cast
        exact_mod_cast h1
      simp only []
      omega

/-- The accumulation loop of `can_fill_completely` is total on in-bounds
live levels, and a `true` answer under-approximates: the real liquidity over
the scanned levels (plus the carried accumulator) covers the order
quantity. -/
theorem canFillLoop_spec (bk : FixedPriceOrderBook) (levels : List (List Nat))
    (order : Order) (L : List Nat)
    (hin : ∀ i ∈ L, i < levels.length)
    (hwf : levelsWF bk.order_ledger levels) :
    ∀ avail : Nat,
      ∃ b, canFillLoop bk levels order avail L = some b ∧
        (b = true →
          (u32_cast order.quantity : Int) ≤
            avail + availQty bk.order_ledger levels L) := by
  induction L with
  | nil => exact fun avail => ⟨false, rfl, by simp⟩
  | cons i rest ih =>
    intro avail
    have hilen : i < levels.length := hin i (by simp)
    obtain ⟨qi, hqi⟩ : ∃ qi, levels[i]? = some qi := by
      rcases hx : levels[i]? with _ | qi
      · rw [List.getElem?_eq_none_iff] at hx; omega
      · exact ⟨qi, rfl⟩
    obtain ⟨s, hs, hsle⟩ := queueQuantitySum_spec (levelsWF_get hwf hqi)
    have hlev : (s : Int) ≤ levelTotal bk.order_ledger levels i := by
      unfold levelTotal
      rw [hqi]
      exact hsle
    have hrest_nonneg : 0 ≤ availQty bk.order_ledger levels rest := by
      unfold availQty
      refine List.sum_nonneg ?_
      intro x hx
      obtain ⟨j, hj, rfl⟩ := List.mem_map.mp hx
      unfold levelTotal
      rcases hy : levels[j]? with _ | qj
      · simp [queueTotal_nil]
      · simpa using queueTotal_nonneg (levelsWF_get hwf hy)
    by_cases hge : (avail + s) % 2 ^ 32 ≥ u32_cast order.quantity
    · refine ⟨true, ?_, ?_⟩
      · simp only [canFillLoop, hqi, hs, if_pos hge]
      · intro _
        rw [availQty_cons]
        have h1 : ((avail + s) % 2 ^ 32 : Nat) ≤ avail + s := Nat.mod_le _ _
        have h2 : (u32_cast order.quantity : Int) ≤ ((avail + s) % 2 ^ 32 : Nat) :=
          by exact_mod_cast hge
        have h3 : (((avail + s) % 2 ^ 32 : Nat) : Int) ≤ (avail : Int) + s := by
          push_cast
          exact_mod_cast h1
        omega
    · obtain ⟨b, hb, hble⟩ := ih (fun j hj => hin j (by simp [hj])) ((avail + s) % 2 ^ 32)
      refine ⟨b, ?_, ?_⟩
      · simp only [canFillLoop, hqi, hs, if_neg hge]
        exact hb
      · intro hbt
        have h1 : ((avail + s) % 2 ^ 32 : Nat) ≤ avail + s := Nat.mod_le _ _
        have h3 : (((avail + s) % 2 ^ 32 : Nat) : Int) ≤ (avail : Int) + s := by
          push_cast
          exact_mod_cast h1
        have := hble hbt
        rw [availQty_cons]
        omega

/-- In a well-formed book, every ask level strictly below the cached best ask
is empty. -/
theorem bestAsk_empty_below {bk : FixedPriceOrderBook} (hwf : WF bk) {b : Nat}
    (hb : bk.best_ask_index = some b) {j : Nat} (hj : j < b)
    (hjlen : j < bk.asks.length) : bk.asks[j]? = some [] := by
  obtain ⟨-, -, -, -, -, -, hba⟩ := hwf
  rcases hx : bk.asks[j]? with _ | qj
  · rw [List.getElem?_eq_none_iff] at hx; omega
  · have hqe : qj = [] := by
      by_contra hne
      have : b ≤ j := hba b (by simp [hb]) (j, qj)
        (List.mem_enum_iff_getElem?.mpr hx) hne
      omega
    rw [hqe]

/-- In a well-formed book, every bid level strictly above the cached best bid
is empty. -/
theorem bestBid_empty_above {bk : FixedPriceOrderBook} (hwf : WF bk) {b : Nat}
    (hb : bk.best_bid_index = some b) {j : Nat} (hj : b < j)
    (hjlen : j < bk.bids.length) : bk.bids[j]? = some [] := by
  obtain ⟨-, -, -, -, -, hbb, -⟩ := hwf
  rcases hx : bk.bids[j]? with _ | qj
  · rw [List.getElem?_eq_none_iff] at hx; omega
  · have hqe : qj = [] := by
      by_contra hne
      have : j ≤ b := hbb b (by simp [hb]) (j, qj)
        (List.mem_enum_iff_getElem?.mpr hx) hne
      omega
    rw [hqe]

theorem range'_split (s m k : Nat) (h : m ≤ k) :
    List.range' s k = List.range' s m ++ List.range' (s + m) (k - m) := by
  have h2 := List.range'_append s m (k - m) 1
  rw [one_mul] at h2
  have h3 : k - m + m = k := by omega
  rw [h3] at h2
  exact h2.symm

/-- If `can_fill_completely` answers `true` for a Buy order, the real ask
liquidity over the range that `fill_limit_order` will scan covers the order
quantity. -/
theorem can_fill_true_buy {bk : FixedPriceOrderBook} {order : Order}
    (hwf : WF bk) (hside : order.order_side = .Buy)
    (hp : order.price < bk.bids.length) (hq0 : 0 < order.quantity)
    (hq2 : order.quantity < 2 ^ 31)
    (htrue : can_fill_completely bk order = some true) :
    order.quantity ≤ availQty bk.order_ledger bk.asks (limitScanAsks bk order) := by
  have hlen : bk.asks.length = bk.bids.length := hwf.1
  have haskswf : levelsWF bk.order_ledger bk.asks := hwf.2.2.2.1
  have hin : ∀ i ∈ List.range (order.price + 1), i < bk.asks.length := by
    intro i hi
    rw [List.mem_range] at hi
    omega
  obtain ⟨b, hb, hble⟩ := canFillLoop_spec bk bk.asks order _ hin haskswf 0
  simp only [can_fill_completely, hside] at htrue
  rw [hb] at htrue
  have hbt : b = true := Option.some.inj htrue
  have hle := hble hbt
  rw [u32_cast_int hq0.le (by norm_num at hq2 ⊢; omega)] at hle
  have hrange : availQty bk.order_ledger bk.asks (List.range (order.price + 1)) =
      availQty bk.order_ledger bk.asks (limitScanAsks bk order) +
      availQty bk.order_ledger bk.asks
        (List.range' 0 (min (bk.best_ask_index.getD 0) (order.price + 1))) := by
    rw [List.range_eq_range']
    unfold limitScanAsks
    rcases hba : bk.best_ask_index with _ | b'
    · simp only [Option.getD_none, Nat.sub_zero]
      rw [show min 0 (order.price + 1) = 0 from by omega]
      rw [show List.range' 0 0 = [] from rfl, availQty_nil]
      ring
    · simp only [Option.getD_some]
      by_cases hsp : b' ≤ order.price
      · rw [show min b' (order.price + 1) = b' from by omega]
        rw [range'_split 0 b' (order.price + 1) (by omega)]
        rw [availQty_append]
        simp only [Nat.zero_add]
        ring
      · rw [show min b' (order.price + 1) = order.price + 1 from by omega]
        rw [show order.price + 1 - b' = 0 from by omega]
        simp [availQty_nil]
  have hzero : availQty bk.order_ledger bk.asks
      (List.range' 0 (min (bk.best_ask_index.getD 0) (order.price + 1))) = 0 := by
    refine availQty_zero ?_
    intro j hj
    rw [List.mem_range'_1] at hj
    rcases hba : bk.best_ask_index with _ | b'
    · rw [hba] at hj
      simp only [Option.getD_none] at hj
      omega
    · rw [hba] at hj
      simp only [Option.getD_some] at hj
      refine levelTotal_of_nil (bestAsk_empty_below hwf hba (by omega) (by omega))
  rw [hrange, hzero] at hle
  simpa using hle

/-- If `can_fill_completely` answers `true` for a Sell order, the real bid
liquidity over the range that `fill_limit_order` will scan covers the order
quantity. -/
theorem can_fill_true_sell {bk : FixedPriceOrderBook} {order : Order}
    (hwf : WF bk) (hside : order.order_side = .Sell)
    (hp : order.price < bk.bids.length) (hq0 : 0 < order.quantity)
    (hq2 : order.quantity < 2 ^ 31)
    (htrue : can_fill_completely bk order = some true) :
    order.quantity ≤ availQty bk.order_ledger bk.bids (limitScanBids bk order) := by
  have hbidswf : levelsWF bk.order_ledger bk.bids := hwf.2.2.1
  have hin : ∀ i ∈ (List.range' order.price (bk.bids.length - order.price)).reverse,
      i < bk.bids.length := by
    intro i hi
    rw [List.mem_reverse, List.mem_range'_1] at hi
    omega
  obtain ⟨b, hb, hble⟩ := canFillLoop_spec bk bk.bids order _ hin hbidswf 0
  simp only [can_fill_completely, hside] at htrue
  rw [hb] at htrue
  have hle := hble (Option.some.inj htrue)
  rw [u32_cast_int hq0.le (by norm_num at hq2 ⊢; omega), availQty_reverse] at hle
  unfold limitScanBids
  rw [availQty_reverse, ]
  rcases hbb : bk.best_bid_index with _ | e
  · simp only [Option.getD_none]
    rw [show bk.bids.length - 1 + 1 - order.price = bk.bids.length - order.price from by
      have := hwf.2.1; omega]
    simpa using hle
  · simp only [Option.getD_some]
    by_cases hep : e < order.price
    · rw [show e + 1 - order.price = 0 from by omega]
      rw [show List.range' order.price 0 = [] from rfl, availQty_nil]
      have hz : availQty bk.order_ledger bk.bids
          (List.range' order.price (bk.bids.length - order.price)) = 0 := by
        refine availQty_zero ?_
        intro j hj
        rw [List.mem_range'_1] at hj
        exact levelTotal_of_nil (bestBid_empty_above hwf hbb (by omega) (by omega))
      rw [hz] at hle
      simpa using hle
    · have hple : order.price ≤ e := by omega
      have hm1 : min (e + 1) bk.bids.length - order.price ≤
          bk.bids.length - order.price := by omega
      have hm2 : min (e + 1) bk.bids.length - order.price ≤
          e + 1 - order.price := by omega
      rw [range'_split order.price (min (e + 1) bk.bids.length - order.price)
        (bk.bids.length - order.price) hm1] at hle
      rw [range'_split order.price (min (e + 1) bk.bids.length - order.price)
        (e + 1 - order.price) hm2]
      rw [availQty_append] at hle
      rw [availQty_append]
      have hz1 : availQty bk.order_ledger bk.bids
          (List.range' (order.price + (min (e + 1) bk.bids.length - order.price))
            (bk.bids.length - order.price -
              (min (e + 1) bk.bids.length - order.price))) = 0 := by
        refine availQty_zero ?_
        intro j hj
        rw [List.mem_range'_1] at hj
        exact levelTotal_of_nil (bestBid_empty_above hwf hbb (by omega) (by omega))
      have hz2 : availQty bk.order_ledger bk.bids
          (List.range' (order.price + (min (e + 1) bk.bids.length - order.price))
            (e + 1 - order.price -
              (min (e + 1) bk.bids.length - order.price))) = 0 := by
        refine availQty_zero ?_
        intro j hj
        rw [List.mem_range'_1] at hj
        refine levelTotal_of_none ?_
        rw [List.getElem?_eq_none_iff]
        omega
      rw [hz1] at hle
      rw [hz2]
      omega

/-! ### Resting the remainder of a Limit order -/

/-- `recalculate_best_bid` touches only the cached best bid. -/
theorem recalculate_best_bid_fields (bk : FixedPriceOrderBook) (p : Nat) :
    (recalculate_best_bid bk p).bids = bk.bids ∧
    (recalculate_best_bid bk p).asks = bk.asks ∧
    (recalculate_best_bid bk p).order_ledger = bk.order_ledger ∧
    (recalculate_best_bid bk p).trade_history = bk.trade_history ∧
    (recalculate_best_bid bk p).index_mappings = bk.index_mappings ∧
    (recalculate_best_bid bk p).best_ask_index = bk.best_ask_index ∧
    (recalculate_best_bid bk p).config = bk.config := by
  rcases hb : bk.best_bid_index with _ | b
  · have hred : recalculate_best_bid bk p = { bk with best_bid_index := some p } := by
      unfold recalculate_best_bid
      rw [hb]
    rw [hred]
    exact ⟨rfl, rfl, rfl, rfl, rfl, rfl, rfl⟩
  · by_cases h : p > b
    · have hred : recalculate_best_bid bk p = { bk with best_bid_index := some p } := by
        unfold recalculate_best_bid
        rw [hb]
        exact if_pos h
      rw [hred]
      exact ⟨rfl, rfl, rfl, rfl, rfl, rfl, rfl⟩
    · have hred : recalculate_best_bid bk p = bk := by
        unfold recalculate_best_bid
        rw [hb]
        exact if_neg h
      rw [hred]
      exact ⟨rfl, rfl, rfl, rfl, rfl, rfl, rfl⟩

/-- `recalculate_best_ask` touches only the cached best ask. -/
theorem recalculate_best_ask_fields (bk : FixedPriceOrderBook) (p : Nat) :
    (recalculate_best_ask bk p).bids = bk.bids ∧
    (recalculate_best_ask bk p).asks = bk.asks ∧
    (recalculate_best_ask bk p).order_ledger = bk.order_ledger ∧
    (recalculate_best_ask bk p).trade_history = bk.trade_history ∧
    (recalculate_best_ask bk p).index_mappings = bk.index_mappings ∧
    (recalculate_best_ask bk p).best_bid_index = bk.best_bid_index ∧
    (recalculate_best_ask bk p).config = bk.config := by
  rcases hb : bk.best_ask_index with _ | b
  · have hred : recalculate_best_ask bk p = { bk with best_ask_index := some p } := by
      unfold recalculate_best_ask
      rw [hb]
    rw [hred]
    exact ⟨rfl, rfl, rfl, rfl, rfl, rfl, rfl⟩
  · by_cases h : p < b
    · have hred : recalculate_best_ask bk p = { bk with best_ask_index := some p } := by
        unfold recalculate_best_ask
        rw [hb]
        exact if_pos h
      rw [hred]
      exact ⟨rfl, rfl, rfl, rfl, rfl, rfl, rfl⟩
    · have hred : recalculate_best_ask bk p = bk := by
        unfold recalculate_best_ask
        rw [hb]
        exact if_neg h
      rw [hred]
      exact ⟨rfl, rfl, rfl, rfl, rfl, rfl, rfl⟩

/-- Behaviour of `rest_remaining_limit_order` on a Limit order whose price
tick exists on both sides: it succeeds, inserts the status-updated order
into a fresh ledger slot, and pushes that slot's index to the back of the
correct side's queue at the order's price. -/
theorem rest_remaining_limit_order_spec (bk : FixedPriceOrderBook) (order : Order)
    (pf : Bool) (htype : order.order_type = .Limit)
    (hlenp : order.price < bk.bids.length) (hlena : order.price < bk.asks.length) :
    ∃ bk' idx,
      rest_remaining_limit_order bk order pf = some (bk', .ok ()) ∧
      slabGet bk'.order_ledger idx =
        some { order with
          order_status := if pf then OrderStatus.PartiallyFilled else .Active } ∧
      (order.order_side = .Buy → idx ∈ (bk'.bids[order.price]?.getD []) ∧
        bk'.asks = bk.asks) ∧
      (order.order_side = .Sell → idx ∈ (bk'.asks[order.price]?.getD []) ∧
        bk'.bids = bk.bids) ∧
      bk'.trade_history = bk.trade_history := by
  rcases hside : order.order_side with _ | _
  · -- Buy: the order rests on the bid side
    obtain ⟨hf1, hf2, hf3, hf4, hf5, hf6, hf7⟩ :=
      recalculate_best_bid_fields bk order.price
    obtain ⟨queue, hq⟩ :
        ∃ q, (recalculate_best_bid bk order.price).bids[order.price]? = some q := by
      rcases hx : (recalculate_best_bid bk order.price).bids[order.price]? with _ | q
      · rw [List.getElem?_eq_none_iff, hf1] at hx; omega
      · exact ⟨q, rfl⟩
    have hspec := slabInsert_spec (recalculate_best_bid bk order.price).order_ledger
      { order with
        order_status := if pf then OrderStatus.PartiallyFilled else .Active }
    refine ⟨{ recalculate_best_bid bk order.price with
        order_ledger := (slabInsert
          (recalculate_best_bid bk order.price).order_ledger
          { order with
            order_status := if pf then OrderStatus.PartiallyFilled else .Active }).1
        bids := (recalculate_best_bid bk order.price).bids.set order.price
          (queue ++ [(slabInsert
            (recalculate_best_bid bk order.price).order_ledger
            { order with
              order_status := if pf then OrderStatus.PartiallyFilled else .Active }).2])
        index_mappings := mapInsert
          (recalculate_best_bid bk order.price).index_mappings order.order_id
          (slabInsert (recalculate_best_bid bk order.price).order_ledger
            { order with
              order_status := if pf then OrderStatus.PartiallyFilled else .Active }).2 },
      (slabInsert (recalculate_best_bid bk order.price).order_ledger
        { order with
          order_status := if pf then OrderStatus.PartiallyFilled else .Active }).2,
      ?_, ?_, ?_, ?_, ?_⟩
    · simp only [rest_remaining_limit_order, htype, hside]
      rw [if_neg (by simp), hq]
    · have h1 := hspec.1
      rw [hside] at h1
      rw [hside]
      exact h1
    · intro _
      refine ⟨?_, hf2⟩
      rw [show ({ recalculate_best_bid bk order.price with
          order_ledger := (slabInsert
            (recalculate_best_bid bk order.price).order_ledger
            { order with
              order_status := if pf then OrderStatus.PartiallyFilled else .Active }).1
          bids := (recalculate_best_bid bk order.price).bids.set order.price
            (queue ++ [(slabInsert
              (recalculate_best_bid bk order.price).order_ledger
              { order with
                order_status := if pf then OrderStatus.PartiallyFilled else .Active }).2])
          index_mappings := mapInsert
            (recalculate_best_bid bk order.price).index_mappings order.order_id
            (slabInsert (recalculate_best_bid bk order.price).order_ledger
              { order with
                order_status := if pf then OrderStatus.PartiallyFilled else .Active }).2 } :
          FixedPriceOrderBook).bids =
          (recalculate_best_bid bk order.price).bids.set order.price
            (queue ++ [(slabInsert
              (recalculate_best_bid bk order.price).order_ledger
              { order with
                order_status := if pf then OrderStatus.PartiallyFilled else .Active }).2])
        from rfl]
      rw [List.getElem?_set_self (by rw [hf1]; omega)]
      simp
    · intro hcontra
      exact absurd hcontra (by decide)
    · exact hf4
  · -- Sell: the order rests on the ask side
    obtain ⟨hf1, hf2, hf3, hf4, hf5, hf6, hf7⟩ :=
      recalculate_best_ask_fields bk order.price
    obtain ⟨queue, hq⟩ :
        ∃ q, (recalculate_best_ask bk order.price).asks[order.price]? = some q := by
      rcases hx : (recalculate_best_ask bk order.price).asks[order.price]? with _ | q
      · rw [List.getElem?_eq_none_iff, hf2] at hx; omega
      · exact ⟨q, rfl⟩
    have hspec := slabInsert_spec (recalculate_best_ask bk order.price).order_ledger
      { order with
        order_status := if pf then OrderStatus.PartiallyFilled else .Active }
    refine ⟨{ recalculate_best_ask bk order.price with
        order_ledger := (slabInsert
          (recalculate_best_ask bk order.price).order_ledger
          { order with
            order_status := if pf then OrderStatus.PartiallyFilled else .Active }).1
        asks := (recalculate_best_ask bk order.price).asks.set order.price
          (queue ++ [(slabInsert
            (recalculate_best_ask bk order.price).order_ledger
            { order with
              order_status := if pf then OrderStatus.PartiallyFilled else .Active }).2])
        index_mappings := mapInsert
          (recalculate_best_ask bk order.price).index_mappings order.order_id
          (slabInsert (recalculate_best_ask bk order.price).order_ledger
            { order with
              order_status := if pf then OrderStatus.PartiallyFilled else .Active }).2 },
      (slabInsert (recalculate_best_ask bk order.price).order_ledger
        { order with
          order_status := if pf then OrderStatus.PartiallyFilled else .Active }).2,
      ?_, ?_, ?_, ?_, ?_⟩
    · simp only [rest_remaining_limit_order, htype, hside]
      rw [if_neg (by simp), hq]
    · have h1 := hspec.1
      rw [hside] at h1
      rw [hside]
      exact h1
    · intro hcontra
      exact absurd hcontra (by decide)
    · intro _
      refine ⟨?_, hf1⟩
      rw [show ({ recalculate_best_ask bk order.price with
          order_ledger := (slabInsert
            (recalculate_best_ask bk order.price).order_ledger
            { order with
              order_status := if pf then OrderStatus.PartiallyFilled else .Active }).1
          asks := (recalculate_best_ask bk order.price).asks.set order.price
            (queue ++ [(slabInsert
              (recalculate_best_ask bk order.price).order_ledger
              { order with
                order_status := if pf then OrderStatus.PartiallyFilled else .Active }).2])
          index_mappings := mapInsert
            (recalculate_best_ask bk order.price).index_mappings order.order_id
            (slabInsert (recalculate_best_ask bk order.price).order_ledger
              { order with
                order_status := if pf then OrderStatus.PartiallyFilled else .Active }).2 } :
          FixedPriceOrderBook).asks =
          (recalculate_best_ask bk order.price).asks.set order.price
            (queue ++ [(slabInsert
              (recalculate_best_ask bk order.price).order_ledger
              { order with
                order_status := if pf then OrderStatus.PartiallyFilled else .Active }).2])
        from rfl]
      rw [List.getElem?_set_self (by rw [hf2]; omega)]
      simp
    · exact hf4

/-- `can_fill_completely` is total on a well-formed book whose queried tick
is in range (never panics on a vacant slab index). -/
theorem can_fill_total (bk : FixedPriceOrderBook) (order : Order)
    (hwf : WF bk) (hp : order.price < bk.bids.length) :
    ∃ b, can_fill_completely bk order = some b := by
  rcases hside : order.order_side with _ | _
  · obtain ⟨b, hb, _⟩ := canFillLoop_spec bk bk.asks order
      (List.range (order.price + 1))
      (fun i hi => by
        rw [List.mem_range] at hi
        have hlen : bk.asks.length = bk.bids.length := hwf.1
        omega)
      hwf.2.2.2.1 0
    refine ⟨b, ?_⟩
    simp only [can_fill_completely, hside]
    exact hb
  · obtain ⟨b, hb, _⟩ := canFillLoop_spec bk bk.bids order
      ((List.range' order.price (bk.bids.length - order.price)).reverse)
      (fun i hi => by rw [List.mem_reverse, List.mem_range'_1] at hi; omega)
      hwf.2.2.1 0
    refine ⟨b, ?_⟩
    simp only [can_fill_completely, hside]
    exact hb

/-- Umbrella specification of `add_order` on a well-formed book for an
in-range order with a positive `i32` quantity: the call is total, records
exactly its new fills in the trade history, conserves quantity
(`initial = Σ fills + remainder`, remainder nonnegative), produces fills
with monotone prices per aggressor side, and the per-order-type result
protocol holds (Market errors with `InsufficientLiquidity` exactly on a
positive remainder, Limit rests a positive remainder, IOC drops it,
Fill-or-Kill either fills completely or rejects with an untouched book). -/
theorem add_order_spec (bk : FixedPriceOrderBook) (order : Order)
    (hwf : WF bk) (hq0 : 0 < order.quantity) (hq2 : order.quantity < 2 ^ 31)
    (hp : order.price < bk.bids.length) :
    ∃ bk' res nf,
      add_order bk order = some (bk', res) ∧
      bk'.trade_history = bk.trade_history ++ nf ∧
      (∀ f ∈ nf, 0 < (f.quantity : Int)) ∧
      0 ≤ order.quantity - fillsQty nf ∧
      (order.order_side = .Buy → (nf.map OrderFill.price).Pairwise (· ≤ ·)) ∧
      (order.order_side = .Sell → (nf.map OrderFill.price).Pairwise (· ≥ ·)) ∧
      (order.order_type = .Market →
        (res = .error .InsufficientLiquidity ↔ 0 < order.quantity - fillsQty nf) ∧
        (res = .ok () ∨ res = .error .InsufficientLiquidity)) ∧
      (order.order_type = .Limit → res = .ok () ∧
        (0 < order.quantity - fillsQty nf →
          ∃ idx, slabGet bk'.order_ledger idx =
            some { order with
              quantity := order.quantity - fillsQty nf
              order_status := if 0 < nf.length then OrderStatus.PartiallyFilled
                else .Active })) ∧
      (order.order_type = .ImmediateOrCancel → res = .ok () ∧
        bk'.index_mappings = bk.index_mappings) ∧
      (order.order_type = .FillOrKill →
        (res = .ok () ∧ order.quantity - fillsQty nf = 0) ∨
        (res = .error .CannotFillCompletely ∧ nf = [] ∧ bk' = bk)) := by
  have hnotge : ¬ (order.price ≥ bk.bids.length) := by omega
  rcases htype : order.order_type with _ | _ | _ | _
  · -- Limit
    obtain ⟨bk1, nf, heq, hth, hrem, hfpos, hmb, hms, him, hbb, hba, hcfg, hlb,
      hla, hbuy, hsell⟩ := fill_limit_order_spec bk order hwf hq0.le hq2
    by_cases hr : 0 < order.quantity - fillsQty nf
    · obtain ⟨bk2, idx, hreq, hslot, hbuyr, hsellr, hthr⟩ :=
        rest_remaining_limit_order_spec bk1
          { order with quantity := order.quantity - fillsQty nf }
          (decide (nf.length > 0)) htype
          (by rw [hlb]; exact hp)
          (by rw [hla, hwf.1]; exact hp)
      refine ⟨bk2, .ok (), nf, ?_, hthr.trans hth, hfpos, hrem, hmb, hms,
        ?_, ?_, ?_, ?_⟩
      · simp only [add_order]
        rw [if_neg hnotge]
        simp only [execute_fill_by_order_type, htype]
        rw [heq]
        exact (if_pos hr).trans hreq
      · intro h
        exact absurd h (by decide)
      · intro _
        refine ⟨rfl, fun _ => ⟨idx, ?_⟩⟩
        simpa [htype] using hslot
      · intro h
        exact absurd h (by decide)
      · intro h
        exact absurd h (by decide)
    · refine ⟨bk1, .ok (), nf, ?_, hth, hfpos, hrem, hmb, hms, ?_, ?_, ?_, ?_⟩
      · simp only [add_order]
        rw [if_neg hnotge]
        simp only [execute_fill_by_order_type, htype]
        rw [heq]
        exact if_neg hr
      · intro h
        exact absurd h (by decide)
      · intro _
        exact ⟨rfl, fun hcon => absurd hcon hr⟩
      · intro h
        exact absurd h (by decide)
      · intro h
        exact absurd h (by decide)
  · -- Market
    obtain ⟨bk1, nf, heq, hth, hrem, hfpos, hmb, hms, him, hbb, hba, hcfg, hlb,
      hla⟩ := fill_market_order_spec bk order hwf hq0.le hq2
    by_cases hr : 0 < order.quantity - fillsQty nf
    · refine ⟨bk1, .error .InsufficientLiquidity, nf, ?_, hth, hfpos, hrem,
        hmb, hms, ?_, ?_, ?_, ?_⟩
      · simp only [add_order]
        rw [if_neg hnotge]
        simp only [execute_fill_by_order_type, htype]
        rw [heq]
        exact if_pos hr
      · intro _
        exact ⟨⟨fun _ => hr, fun _ => rfl⟩, .inr rfl⟩
      · intro h
        exact absurd h (by decide)
      · intro h
        exact absurd h (by decide)
      · intro h
        exact absurd h (by decide)
    · refine ⟨bk1, .ok (), nf, ?_, hth, hfpos, hrem, hmb, hms, ?_, ?_, ?_, ?_⟩
      · simp only [add_order]
        rw [if_neg hnotge]
        simp only [execute_fill_by_order_type, htype]
        rw [heq]
        exact if_neg hr
      · intro _
        exact ⟨⟨fun h => Except.noConfusion h, fun hcon => absurd hcon hr⟩,
          .inl rfl⟩
      · intro h
        exact absurd h (by decide)
      · intro h
        exact absurd h (by decide)
      · intro h
        exact absurd h (by decide)
  · -- ImmediateOrCancel
    obtain ⟨bk1, nf, heq, hth, hrem, hfpos, hmb, hms, him, hbb, hba, hcfg, hlb,
      hla, hbuy, hsell⟩ := fill_limit_order_spec bk order hwf hq0.le hq2
    refine ⟨bk1, .ok (), nf, ?_, hth, hfpos, hrem, hmb, hms, ?_, ?_, ?_, ?_⟩
    · simp only [add_order]
      rw [if_neg hnotge]
      simp only [execute_fill_by_order_type, htype,
        fill_immediate_or_cancel_order]
      rw [heq]
    · intro h
      exact absurd h (by decide)
    · intro h
      exact absurd h (by decide)
    · intro _
      exact ⟨rfl, him⟩
    · intro h
      exact absurd h (by decide)
  · -- FillOrKill
    obtain ⟨b, hcf⟩ := can_fill_total bk order hwf hp
    rcases b with _ | _
    · refine ⟨bk, .error .CannotFillCompletely, [], ?_, ?_, ?_, ?_, ?_, ?_,
        ?_, ?_, ?_, ?_⟩
      · simp only [add_order]
        rw [if_neg hnotge]
        simp only [execute_fill_by_order_type, htype, fill_fill_or_kill_order]
        rw [hcf]
      · exact (List.append_nil _).symm
      · intro f hf
        exact absurd hf (by simp)
      · rw [fillsQty_nil]
        omega
      · intro _
        simp
      · intro _
        simp
      · intro h
        exact absurd h (by decide)
      · intro h
        exact absurd h (by decide)
      · intro h
        exact absurd h (by decide)
      · intro _
        exact .inr ⟨rfl, rfl, rfl⟩
    · obtain ⟨bk1, nf, heq, hth, hrem, hfpos, hmb, hms, him, hbb, hba, hcfg,
        hlb, hla, hbuy, hsell⟩ := fill_limit_order_spec bk order hwf hq0.le hq2
      have hrem0 : order.quantity - fillsQty nf = 0 := by
        by_contra hne
        have hr : 0 < order.quantity - fillsQty nf := lt_of_le_of_ne hrem
          (Ne.symm hne)
        rcases hside : order.order_side with _ | _
        · have h1 := (hbuy hside).2 hr
          have h2 := can_fill_true_buy hwf hside hp hq0 hq2 hcf
          omega
        · have h1 := (hsell hside).2 hr
          have h2 := can_fill_true_sell hwf hside hp hq0 hq2 hcf
          omega
      refine ⟨bk1, .ok (), nf, ?_, hth, hfpos, hrem, hmb, hms, ?_, ?_, ?_, ?_⟩
      · simp only [add_order]
        rw [if_neg hnotge]
        simp only [execute_fill_by_order_type, htype, fill_fill_or_kill_order]
        rw [hcf, heq]
      · intro h
        exact absurd h (by decide)
      · intro h
        exact absurd h (by decide)
      · intro h
        exact absurd h (by decide)
      · intro _
        exact .inl ⟨rfl, hrem0⟩

/-! ### Concrete books used by the claim witnesses -/

/-- A resting ask: Sell limit order 7 for 500 units at tick 1. -/
def oRest : Order :=
  { order_id := 7
    order_type := .Limit
    order_status := .Active
    order_side := .Sell
    user_id := 1
    price := 1
    quantity := 500 }

/-- A small well-formed three-tick book holding `oRest` at ask level 1. -/
def bkW : FixedPriceOrderBook :=
  { config := { min_price := 0, max_price := 2, tick_size := 1, queue_size := 4 }
    bids := [[], [], []]
    asks := [[], [0], []]
    order_ledger := [some oRest]
    index_mappings := [(7, 0)]
    trade_history := []
    best_bid_index := none
    best_ask_index := some 1
    clock := 0 }

/-- Aggressive Buy limit order crossing `bkW` with a remainder. -/
def oAggLimit : Order :=
  { order_id := 10
    order_type := .Limit
    order_status := .Active
    order_side := .Buy
    user_id := 2
    price := 2
    quantity := 800 }

/-- Aggressive Buy market order covered by `bkW`'s liquidity. -/
def oAggMarket : Order :=
  { order_id := 11
    order_type := .Market
    order_status := .Active
    order_side := .Buy
    user_id := 2
    price := 0
    quantity := 300 }

/-- Aggressive Buy fill-or-kill order on `bkW`. -/
def oAggFok : Order :=
  { order_id := 12
    order_type := .FillOrKill
    order_status := .Active
    order_side := .Buy
    user_id := 2
    price := 2
    quantity := 200 }

/-- Aggressive Buy market order exceeding `bkW`'s liquidity. -/
def oAggBig : Order :=
  { order_id := 13
    order_type := .Market
    order_status := .Active
    order_side := .Buy
    user_id := 2
    price := 0
    quantity := 600 }

/-! ### The claims -/

/-- C1.  For every order accepted through `add_order` (entry quantity
positive, price tick in range) on a well-formed book, the order's initial
quantity equals the sum of the produced fills' quantities plus the
remaining quantity at exit; the remainder is nonnegative, is rested into
the ledger for a Limit order, is flagged by `InsufficientLiquidity`
exactly when positive for a Market order, and is zero for a successful
fill-or-kill order. -/
theorem quantity_conservation_add_order (bk : FixedPriceOrderBook)
    (order : Order) (hwf : WF bk) (hq0 : 0 < order.quantity)
    (hq2 : order.quantity < 2 ^ 31) (hp : order.price < bk.bids.length) :
    ∃ bk' res nf rem,
      add_order bk order = some (bk', res) ∧
      bk'.trade_history = bk.trade_history ++ nf ∧
      order.quantity = fillsQty nf + rem ∧
      0 ≤ rem ∧
      (∀ f ∈ nf, 0 < (f.quantity : Int)) ∧
      (order.order_type = .Limit → 0 < rem →
        ∃ idx, slabGet bk'.order_ledger idx =
          some { order with
            quantity := rem
            order_status := if 0 < nf.length then OrderStatus.PartiallyFilled
              else .Active }) ∧
      (order.order_type = .Market →
        (res = .error .InsufficientLiquidity ↔ 0 < rem)) ∧
      (order.order_type = .FillOrKill → res = .ok () → rem = 0) := by
  obtain ⟨bk', res, nf, heq, hth, hfpos, hrem, hmb, hms, hmkt, hlim, hioc,
    hfok⟩ := add_order_spec bk order hwf hq0 hq2 hp
  refine ⟨bk', res, nf, order.quantity - fillsQty nf, heq, hth, by ring,
    hrem, hfpos, ?_, ?_, ?_⟩
  · intro htype hr
    exact (hlim htype).2 hr
  · intro htype
    exact (hmkt htype).1
  · intro htype hok
    rcases hfok htype with ⟨_, h0⟩ | ⟨herr, _, _⟩
    · exact h0
    · rw [hok] at herr
      exact Except.noConfusion herr

/-- Witness for C1: the Buy limit order `oAggLimit` on the concrete
well-formed book `bkW`. -/
theorem quantity_conservation_add_order_witness :
    WF bkW ∧ 0 < oAggLimit.quantity ∧ oAggLimit.quantity < 2 ^ 31 ∧
    oAggLimit.price < bkW.bids.length ∧
    ∃ bk' res nf rem,
      add_order bkW oAggLimit = some (bk', res) ∧
      bk'.trade_history = bkW.trade_history ++ nf ∧
      oAggLimit.quantity = fillsQty nf + rem ∧
      0 ≤ rem ∧
      (∀ f ∈ nf, 0 < (f.quantity : Int)) ∧
      (oAggLimit.order_type = .Limit → 0 < rem →
        ∃ idx, slabGet bk'.order_ledger idx =
          some { oAggLimit with
            quantity := rem
            order_status := if 0 < nf.length then OrderStatus.PartiallyFilled
              else .Active }) ∧
      (oAggLimit.order_type = .Market →
        (res = .error .InsufficientLiquidity ↔ 0 < rem)) ∧
      (oAggLimit.order_type = .FillOrKill → res = .ok () → rem = 0) :=
  ⟨by decide, by decide, by decide, by decide,
    quantity_conservation_add_order bkW oAggLimit (by decide) (by decide)
      (by decide) (by decide)⟩

/-- C2.  For every aggressive order processed by one `add_order` call on a
well-formed book, the produced fill sequence has non-decreasing prices for
a Buy aggressor and non-increasing prices for a Sell aggressor. -/
theorem fill_price_monotonicity (bk : FixedPriceOrderBook) (order : Order)
    (hwf : WF bk) (hq0 : 0 < order.quantity)
    (hq2 : order.quantity < 2 ^ 31) (hp : order.price < bk.bids.length) :
    ∃ bk' res nf,
      add_order bk order = some (bk', res) ∧
      bk'.trade_history = bk.trade_history ++ nf ∧
      (order.order_side = .Buy → (nf.map OrderFill.price).Pairwise (· ≤ ·)) ∧
      (order.order_side = .Sell → (nf.map OrderFill.price).Pairwise (· ≥ ·)) := by
  obtain ⟨bk', res, nf, heq, hth, _, _, hmb, hms, _, _, _, _⟩ :=
    add_order_spec bk order hwf hq0 hq2 hp
  exact ⟨bk', res, nf, heq, hth, hmb, hms⟩

/-- Witness for C2: the Buy market order `oAggMarket` on `bkW`. -/
theorem fill_price_monotonicity_witness :
    WF bkW ∧ 0 < oAggMarket.quantity ∧ oAggMarket.quantity < 2 ^ 31 ∧
    oAggMarket.price < bkW.bids.length ∧
    ∃ bk' res nf,
      add_order bkW oAggMarket = some (bk', res) ∧
      bk'.trade_history = bkW.trade_history ++ nf ∧
      (oAggMarket.order_side = .Buy →
        (nf.map OrderFill.price).Pairwise (· ≤ ·)) ∧
      (oAggMarket.order_side = .Sell →
        (nf.map OrderFill.price).Pairwise (· ≥ ·)) :=
  ⟨by decide, by decide, by decide, by decide,
    fill_price_monotonicity bkW oAggMarket (by decide) (by decide)
      (by decide) (by decide)⟩

/-- C3.  Fill-or-kill is all-or-nothing: a fill-or-kill order submitted via
`add_order` on a well-formed book either fills its exact initial quantity,
or returns `CannotFillCompletely` with zero fills and the book unchanged. -/
theorem fok_all_or_nothing (bk : FixedPriceOrderBook) (order : Order)
    (hwf : WF bk) (hq0 : 0 < order.quantity)
    (hq2 : order.quantity < 2 ^ 31) (hp : order.price < bk.bids.length)
    (htype : order.order_type = .FillOrKill) :
    ∃ bk' res nf,
      add_order bk order = some (bk', res) ∧
      bk'.trade_history = bk.trade_history ++ nf ∧
      ((res = .ok () ∧ fillsQty nf = order.quantity) ∨
       (res = .error .CannotFillCompletely ∧ nf = [] ∧ bk' = bk)) := by
  obtain ⟨bk', res, nf, heq, hth, _, _, _, _, _, _, _, hfok⟩ :=
    add_order_spec bk order hwf hq0 hq2 hp
  refine ⟨bk', res, nf, heq, hth, ?_⟩
  rcases hfok htype with ⟨hok, h0⟩ | hrej
  · exact .inl ⟨hok, by omega⟩
  · exact .inr hrej

/-- Witness for C3: the fill-or-kill order `oAggFok` on `bkW`. -/
theorem fok_all_or_nothing_witness :
    WF bkW ∧ 0 < oAggFok.quantity ∧ oAggFok.quantity < 2 ^ 31 ∧
    oAggFok.price < bkW.bids.length ∧ oAggFok.order_type = .FillOrKill ∧
    ∃ bk' res nf,
      add_order bkW oAggFok = some (bk', res) ∧
      bk'.trade_history = bkW.trade_history ++ nf ∧
      ((res = .ok () ∧ fillsQty nf = oAggFok.quantity) ∨
       (res = .error .CannotFillCompletely ∧ nf = [] ∧ bk' = bkW)) :=
  ⟨by decide, by decide, by decide, by decide, by decide,
    fok_all_or_nothing bkW oAggFok (by decide) (by decide) (by decide)
      (by decide) (by decide)⟩

/-- C4.  A Market order submitted via `add_order` on a well-formed book
whose quantity is still positive after matching returns
`InsufficientLiquidity`, and the fills already produced remain appended to
the trade history. -/
theorem market_insufficient_liquidity (bk : FixedPriceOrderBook)
    (order : Order) (hwf : WF bk) (hq0 : 0 < order.quantity)
    (hq2 : order.quantity < 2 ^ 31) (hp : order.price < bk.bids.length)
    (htype : order.order_type = .Market) :
    ∃ bk' res nf,
      add_order bk order = some (bk', res) ∧
      bk'.trade_history = bk.trade_history ++ nf ∧
      (∀ f ∈ nf, 0 < (f.quantity : Int)) ∧
      (0 < order.quantity - fillsQty nf →
        res = .error .InsufficientLiquidity) ∧
      (res = .error .InsufficientLiquidity →
        0 < order.quantity - fillsQty nf) := by
  obtain ⟨bk', res, nf, heq, hth, hfpos, _, _, _, hmkt, _, _, _⟩ :=
    add_order_spec bk order hwf hq0 hq2 hp
  exact ⟨bk', res, nf, heq, hth, hfpos, (hmkt htype).1.mpr, (hmkt htype).1.mp⟩

/-- Witness for C4: the oversized Buy market order `oAggBig` on `bkW`. -/
theorem market_insufficient_liquidity_witness :
    WF bkW ∧ 0 < oAggBig.quantity ∧ oAggBig.quantity < 2 ^ 31 ∧
    oAggBig.price < bkW.bids.length ∧ oAggBig.order_type = .Market ∧
    ∃ bk' res nf,
      add_order bkW oAggBig = some (bk', res) ∧
      bk'.trade_history = bkW.trade_history ++ nf ∧
      (∀ f ∈ nf, 0 < (f.quantity : Int)) ∧
      (0 < oAggBig.quantity - fillsQty nf →
        res = .error .InsufficientLiquidity) ∧
      (res = .error .InsufficientLiquidity →
        0 < oAggBig.quantity - fillsQty nf) :=
  ⟨by decide, by decide, by decide, by decide, by decide,
    market_insufficient_liquidity bkW oAggBig (by decide) (by decide)
      (by decide) (by decide) (by decide)⟩

/-- C5 counterexample: cancelling the resting order of `bkW` succeeds and
removes it from the queue and the ledger, yet the `order_id → ledger index`
entry `(7, 0)` is still present in `index_mappings` afterwards — the
mapping is not dropped as the specification claims. -/
theorem cancel_keeps_mapping_counterexample :
    (cancel_order bkW 7).map (fun r => (r.1.index_mappings, r.2)) =
      some ([(7, 0)], .ok ()) ∧
    bkW.index_mappings = [(7, 0)] :=
  ⟨rfl, rfl⟩

/-- C5 (amended).  `cancel_order(order_id)` returns `OrderNotFound` when no
live ledger entry carries `order_id`; on a consistently mapped live order
with an in-range price it removes the order's ledger index from its side's
price-level queue and frees the ledger slot — but it retains the
`order_id → ledger index` entry in `index_mappings` (the original claim's
"drops the mapping" is false; see
`cancel_keeps_mapping_counterexample`). -/
theorem cancel_order_behaviour (bk : FixedPriceOrderBook) (order_id : Nat)
    (hlen : bk.asks.length = bk.bids.length) :
    (bk.order_ledger.any (fun slot =>
        match slot with
        | some o => o.order_id = order_id
        | none => false) = false →
      cancel_order bk order_id = some (bk, .error .OrderNotFound)) ∧
    (∀ idx o, bk.index_mappings.lookup order_id = some idx →
      slabGet bk.order_ledger idx = some o →
      bk.order_ledger.any (fun slot =>
        match slot with
        | some o' => o'.order_id = order_id
        | none => false) = true →
      o.price < bk.bids.length →
      ∃ bk', cancel_order bk order_id = some (bk', .ok ()) ∧
        slabGet bk'.order_ledger idx = none ∧
        (∀ j, j ≠ idx → slabGet bk'.order_ledger j = slabGet bk.order_ledger j) ∧
        (o.order_side = .Buy →
          bk'.bids = bk.bids.set o.price
            ((bk.bids[o.price]?.getD []).filter (fun j => j ≠ idx)) ∧
          bk'.asks = bk.asks) ∧
        (o.order_side = .Sell →
          bk'.asks = bk.asks.set o.price
            ((bk.asks[o.price]?.getD []).filter (fun j => j ≠ idx)) ∧
          bk'.bids = bk.bids) ∧
        bk'.index_mappings = bk.index_mappings ∧
        bk'.trade_history = bk.trade_history ∧
        bk'.best_bid_index = bk.best_bid_index ∧
        bk'.best_ask_index = bk.best_ask_index) := by
  constructor
  · intro hf
    simp only [cancel_order]
    rw [if_pos (by simp [hf])]
  · intro idx o hlk hslot hany hp
    rcases hside : o.order_side with _ | _
    · obtain ⟨qb, hqb⟩ : ∃ q, bk.bids[o.price]? = some q := by
        rcases hx : bk.bids[o.price]? with _ | q
        · rw [List.getElem?_eq_none_iff] at hx; omega
        · exact ⟨q, rfl⟩
      refine ⟨{ bk with
          bids := bk.bids.set o.price (qb.filter (fun j => j ≠ idx))
          order_ledger := slabRemove bk.order_ledger idx },
        ?_, slabGet_remove_self bk.order_ledger idx,
        fun j hj => slabGet_remove_ne bk.order_ledger idx j hj,
        ?_, ?_, rfl, rfl, rfl, rfl⟩
      · simp only [cancel_order, hlk, hslot, hside, hqb]
        rw [if_neg (by simp [hany]), if_neg (by omega)]
      · intro _
        exact ⟨by rw [hqb]; rfl, rfl⟩
      · intro hcontra
        exact absurd hcontra (by decide)
    · obtain ⟨qa, hqa⟩ : ∃ q, bk.asks[o.price]? = some q := by
        rcases hx : bk.asks[o.price]? with _ | q
        · rw [List.getElem?_eq_none_iff] at hx; omega
        · exact ⟨q, rfl⟩
      refine ⟨{ bk with
          asks := bk.asks.set o.price (qa.filter (fun j => j ≠ idx))
          order_ledger := slabRemove bk.order_ledger idx },
        ?_, slabGet_remove_self bk.order_ledger idx,
        fun j hj => slabGet_remove_ne bk.order_ledger idx j hj,
        ?_, ?_, rfl, rfl, rfl, rfl⟩
      · simp only [cancel_order, hlk, hslot, hside, hqa]
        rw [if_neg (by simp [hany]), if_neg (by omega)]
      · intro hcontra
        exact absurd hcontra (by decide)
      · intro _
        exact ⟨by rw [hqa]; rfl, rfl⟩

/-- Witness for C5: cancelling order 7 on the concrete book `bkW`. -/
theorem cancel_order_behaviour_witness :
    bkW.asks.length = bkW.bids.length ∧
    ((bkW.order_ledger.any (fun slot =>
        match slot with
        | some o => o.order_id = 7
        | none => false) = false →
      cancel_order bkW 7 = some (bkW, .error .OrderNotFound)) ∧
     (∀ idx o, bkW.index_mappings.lookup 7 = some idx →
      slabGet bkW.order_ledger idx = some o →
      bkW.order_ledger.any (fun slot =>
        match slot with
        | some o' => o'.order_id = 7
        | none => false) = true →
      o.price < bkW.bids.length →
      ∃ bk', cancel_order bkW 7 = some (bk', .ok ()) ∧
        slabGet bk'.order_ledger idx = none ∧
        (∀ j, j ≠ idx →
          slabGet bk'.order_ledger j = slabGet bkW.order_ledger j) ∧
        (o.order_side = .Buy →
          bk'.bids = bkW.bids.set o.price
            ((bkW.bids[o.price]?.getD []).filter (fun j => j ≠ idx)) ∧
          bk'.asks = bkW.asks) ∧
        (o.order_side = .Sell →
          bk'.asks = bkW.asks.set o.price
            ((bkW.asks[o.price]?.getD []).filter (fun j => j ≠ idx)) ∧
          bk'.bids = bkW.bids) ∧
        bk'.index_mappings = bkW.index_mappings ∧
        bk'.trade_history = bkW.trade_history ∧
        bk'.best_bid_index = bkW.best_bid_index ∧
        bk'.best_ask_index = bkW.best_ask_index)) :=
  ⟨by decide, cancel_order_behaviour bkW 7 (by decide)⟩

/-- A Sell limit order at tick `P = (max − min) / tick = 2` of the
three-tick config: the boundary price the C6 claim says is rejected. -/
def oEdge : Order :=
  { order_id := 20
    order_type := .Limit
    order_status := .Active
    order_side := .Sell
    user_id := 3
    price := 2
    quantity := 100 }

/-- A Limit order priced far beyond the three-tick config's range. -/
def oFar : Order :=
  { order_id := 21
    order_type := .Limit
    order_status := .Active
    order_side := .Buy
    user_id := 3
    price := 5
    quantity := 100 }

/-- C6 counterexample: on the book built from
`{min 0, max 2, tick 1}` — for which `P = (2 − 0) / 1 = 2` — an order at
tick exactly `P = 2` is *not* rejected with `PriceOutOfRange`: the book
allocates `P + 1` levels and `add_order` only rejects ticks `≥ P + 1`. -/
theorem price_bound_counterexample :
    oEdge.price = (2 - 0) / 1 ∧
    ((FixedPriceOrderBook.new
        { min_price := 0, max_price := 2, tick_size := 1, queue_size := 4 }).bind
      (fun bk => add_order bk oEdge)).map (fun r => r.2) = some (.ok ()) :=
  ⟨rfl, rfl⟩

/-- C6 (amended).  On the book built by `new` (nonzero tick size and
`min_price ≤ max_price` — for `min > max` the source's `u32` subtraction
panics in debug builds and wraps in release builds, so this theorem does
not speak about such configs), `add_order` returns `PriceOutOfRange`
exactly when the order's tick is `≥ P + 1` where
`P = (max_price − min_price) / tick_size`: the book has `P + 1` price
levels (ticks `0..=P`), and every tick `< P + 1` proceeds to
`execute_fill_by_order_type` — one more admissible tick than the claim's
bound `P`. -/
theorem add_order_price_bound (cfg : FixedPriceOrderBookConfig)
    (order : Order) (htick : cfg.tick_size ≠ 0)
    (_hrange : cfg.min_price ≤ cfg.max_price) :
    ∃ bk, FixedPriceOrderBook.new cfg = some bk ∧
      bk.bids.length = (cfg.max_price - cfg.min_price) / cfg.tick_size + 1 ∧
      (order.price ≥ (cfg.max_price - cfg.min_price) / cfg.tick_size + 1 →
        add_order bk order = some (bk, .error .PriceOutOfRange)) ∧
      (order.price < (cfg.max_price - cfg.min_price) / cfg.tick_size + 1 →
        add_order bk order = execute_fill_by_order_type bk order) := by
  refine ⟨{
      config := cfg
      bids := List.replicate
          ((cfg.max_price - cfg.min_price) / cfg.tick_size + 1) []
      asks := List.replicate
          ((cfg.max_price - cfg.min_price) / cfg.tick_size + 1) []
      order_ledger := []
      index_mappings := []
      trade_history := []
      best_bid_index := none
      best_ask_index := none
      clock := 0 }, ?_, ?_, ?_, ?_⟩
  · simp only [FixedPriceOrderBook.new]
    rw [if_neg htick]
  · simp
  · intro h
    simp only [add_order, List.length_replicate]
    rw [if_pos h]
  · intro h
    simp only [add_order, List.length_replicate]
    rw [if_neg (by omega)]

/-- Witness for C6: the three-tick config and the out-of-range order
`oFar`. -/
theorem add_order_price_bound_witness :
    ({ min_price := 0, max_price := 2, tick_size := 1, queue_size := 4 } :
      FixedPriceOrderBookConfig).tick_size ≠ 0 ∧
    ({ min_price := 0, max_price := 2, tick_size := 1, queue_size := 4 } :
      FixedPriceOrderBookConfig).min_price ≤
      ({ min_price := 0, max_price := 2, tick_size := 1, queue_size := 4 } :
      FixedPriceOrderBookConfig).max_price ∧
    ∃ bk, FixedPriceOrderBook.new
        { min_price := 0, max_price := 2, tick_size := 1, queue_size := 4 } =
        some bk ∧
      bk.bids.length = (2 - 0) / 1 + 1 ∧
      (oFar.price ≥ (2 - 0) / 1 + 1 →
        add_order bk oFar = some (bk, .error .PriceOutOfRange)) ∧
      (oFar.price < (2 - 0) / 1 + 1 →
        add_order bk oFar = execute_fill_by_order_type bk oFar) :=
  ⟨by decide, by decide, add_order_price_bound
    { min_price := 0, max_price := 2, tick_size := 1, queue_size := 4 }
    oFar (by decide) (by decide)⟩

/-- C7 counterexample: `(max − min) = 5` is not a multiple of
`tick_size = 2`, yet `new` still constructs a book — no `InvalidConfigData`
validation exists anywhere in the constructor (or the crate). -/
theorem new_no_divisibility_validation :
    (FixedPriceOrderBook.new
      { min_price := 0, max_price := 5, tick_size := 2, queue_size := 4 }).isSome =
      true ∧
    (5 - 0) % 2 ≠ 0 :=
  ⟨rfl, by decide⟩

/-- C7 (amended).  `new(config)` performs no divisibility validation at
all: for every configuration with a nonzero tick size and
`min_price ≤ max_price` — whether or not `max_price − min_price` is a
positive multiple of the tick — construction succeeds (the error
`InvalidConfigData` is declared but never constructed), yielding
`(max − min) / tick + 1` empty levels per side and an empty ledger,
mapping and history.  (For `min > max` the source's `u32` subtraction
panics in debug builds and wraps in release builds, so this theorem does
not speak about such configs.) -/
theorem new_constructs_unvalidated (cfg : FixedPriceOrderBookConfig)
    (htick : cfg.tick_size ≠ 0)
    (_hrange : cfg.min_price ≤ cfg.max_price) :
    ∃ bk, FixedPriceOrderBook.new cfg = some bk ∧
      bk.config = cfg ∧
      bk.bids.length = (cfg.max_price - cfg.min_price) / cfg.tick_size + 1 ∧
      bk.asks.length = (cfg.max_price - cfg.min_price) / cfg.tick_size + 1 ∧
      (∀ q ∈ bk.bids, q = []) ∧
      (∀ q ∈ bk.asks, q = []) ∧
      bk.order_ledger = [] ∧ bk.index_mappings = [] ∧
      bk.trade_history = [] ∧
      bk.best_bid_index = none ∧ bk.best_ask_index = none := by
  refine ⟨{
      config := cfg
      bids := List.replicate
          ((cfg.max_price - cfg.min_price) / cfg.tick_size + 1) []
      asks := List.replicate
          ((cfg.max_price - cfg.min_price) / cfg.tick_size + 1) []
      order_ledger := []
      index_mappings := []
      trade_history := []
      best_bid_index := none
      best_ask_index := none
      clock := 0 }, ?_, rfl, by simp, by simp,
    fun q hq => List.eq_of_mem_replicate hq,
    fun q hq => List.eq_of_mem_replicate hq, rfl, rfl, rfl, rfl, rfl⟩
  simp only [FixedPriceOrderBook.new]
  rw [if_neg htick]

/-- Witness for C7: the non-divisible configuration
`{min 0, max 5, tick 2}`. -/
theorem new_constructs_unvalidated_witness :
    ({ min_price := 0, max_price := 5, tick_size := 2, queue_size := 4 } :
      FixedPriceOrderBookConfig).tick_size ≠ 0 ∧
    ({ min_price := 0, max_price := 5, tick_size := 2, queue_size := 4 } :
      FixedPriceOrderBookConfig).min_price ≤
      ({ min_price := 0, max_price := 5, tick_size := 2, queue_size := 4 } :
      FixedPriceOrderBookConfig).max_price ∧
    ∃ bk, FixedPriceOrderBook.new
        { min_price := 0, max_price := 5, tick_size := 2, queue_size := 4 } =
        some bk ∧
      bk.config =
        { min_price := 0, max_price := 5, tick_size := 2, queue_size := 4 } ∧
      bk.bids.length = (5 - 0) / 2 + 1 ∧
      bk.asks.length = (5 - 0) / 2 + 1 ∧
      (∀ q ∈ bk.bids, q = []) ∧
      (∀ q ∈ bk.asks, q = []) ∧
      bk.order_ledger = [] ∧ bk.index_mappings = [] ∧
      bk.trade_history = [] ∧
      bk.best_bid_index = none ∧ bk.best_ask_index = none :=
  ⟨by decide, by decide, new_constructs_unvalidated
    { min_price := 0, max_price := 5, tick_size := 2, queue_size := 4 }
    (by decide) (by decide)⟩

/-- C8: code bug in `find_first_set`.  Starting from `Bitset::<255>::new()`
(an empty bitset, on which both scans correctly return absent) and setting
bits 0 and 100 through the source's own `set`, the smallest set index is 0
(`is_set 0` confirms it), yet `find_first_set` returns 100: the block scan
iterates the backing array from word 0 — which holds the HIGHEST indices in
this reversed layout — so it returns the smallest bit of the highest
nonempty word instead of the overall smallest set bit.  `find_last_set`,
scanning the same direction, is the correct one of the pair (100 here). -/
theorem find_first_set_bug :
    (Bitset.new 255).find_first_set = none ∧
    (Bitset.new 255).find_last_set = none ∧
    (Bitset.new 255).set 0 = some (.ok ⟨255, [0, 0, 0, 1]⟩) ∧
    Bitset.set ⟨255, [0, 0, 0, 1]⟩ 100 =
      some (.ok ⟨255, [0, 0, 2 ^ 36, 1]⟩) ∧
    Bitset.wf ⟨255, [0, 0, 2 ^ 36, 1]⟩ ∧
    Bitset.is_set ⟨255, [0, 0, 2 ^ 36, 1]⟩ 0 = some true ∧
    Bitset.is_set ⟨255, [0, 0, 2 ^ 36, 1]⟩ 100 = some true ∧
    Bitset.find_first_set ⟨255, [0, 0, 2 ^ 36, 1]⟩ = some 100 ∧
    Bitset.find_last_set ⟨255, [0, 0, 2 ^ 36, 1]⟩ = some 100 :=
  ⟨rfl, rfl, rfl, rfl, by decide, rfl, rfl, rfl, rfl⟩

/-- `is_set` on an index above `N` answers `false` outright. -/
theorem is_set_high (bs : Bitset) (j : Nat) (h : bs.N < j) :
    bs.is_set j = some false := by
  simp only [Bitset.is_set]
  rw [if_pos h]

/-- `is_set` panics on an in-bounds index whose word lies past the backing
array (the `usize` underflow of the block computation). -/
theorem is_set_mid (bs : Bitset) (j : Nat) (h1 : j ≤ bs.N)
    (h2 : (bs.N + 63) / 64 ≤ j >>> 6) : bs.is_set j = none := by
  simp only [Bitset.is_set]
  rw [if_neg (by omega), if_pos h2]

/-- In the good range, `is_set` reads bit `j % 64` of the stored word of
`j`'s block. -/
theorem is_set_in_range (bs : Bitset) (j : Nat) (h1 : j ≤ bs.N)
    (h2 : j >>> 6 < (bs.N + 63) / 64) {w : Nat}
    (hw : bs.bits[(bs.N + 63) / 64 - j >>> 6 - 1]? = some w) :
    bs.is_set j = some (w.testBit (j % 64)) := by
  simp only [Bitset.is_set]
  rw [if_neg (by omega), if_neg (Nat.not_le.mpr h2), hw]
  show some (decide (w &&& (1 <<< (j &&& 63)) ≠ 0)) = some (w.testBit (j % 64))
  congr 1
  rw [show j &&& 63 = j % 64 from Nat.and_pow_two_sub_one_eq_mod j 6,
    Nat.one_shiftLeft, Nat.and_two_pow]
  cases h : w.testBit (j % 64) <;> simp [h]

/-- Every low bit of the `u64` all-ones mask is set. -/
theorem testBit_u64_mask {k : Nat} (h : k < 64) :
    Nat.testBit (2 ^ 64 - 1) k = true := by
  rw [Nat.testBit_two_pow_sub_one]
  simp [h]

/-- C9 counterexample: with `N = 64` (a multiple of the word size) the
in-bounds boundary index `i = N` passes the `idx > N` check but underflows
the `usize` block computation `(N + 63)/64 - (idx >> 6) - 1`, so `set` and
`clear` panic instead of succeeding. -/
theorem bitset_boundary_panic :
    (Bitset.new 64).set 64 = none ∧
    (Bitset.new 64).clear 64 = none ∧
    64 ≤ (Bitset.new 64).N :=
  ⟨rfl, rfl, by decide⟩

/-- C9 (amended).  `set(i)`/`clear(i)` return `BitsetIndexOutOfRange(N)`
exactly when `i > N`.  For `i ≤ N` they are NOT always total: when `i`'s
word index reaches the backing array length — which happens at `i = N`
whenever `64 ∣ N` — the block computation underflows and the call panics
(see `bitset_boundary_panic`).  On the remaining in-range indices they
succeed and update exactly bit `i`, observed through `is_set`. -/
theorem bitset_set_clear_bounds (bs : Bitset) (i : Nat) (hwf : bs.wf) :
    (bs.N < i → bs.set i = some (.error (.BitsetIndexOutOfRange bs.N)) ∧
      bs.clear i = some (.error (.BitsetIndexOutOfRange bs.N))) ∧
    (i ≤ bs.N → (bs.N + 63) / 64 ≤ i >>> 6 →
      bs.set i = none ∧ bs.clear i = none) ∧
    (i ≤ bs.N → i >>> 6 < (bs.N + 63) / 64 →
      (∃ bs', bs.set i = some (.ok bs') ∧ bs'.N = bs.N ∧
        bs'.is_set i = some true ∧
        (∀ j, j ≠ i → bs'.is_set j = bs.is_set j)) ∧
      (∃ bs', bs.clear i = some (.ok bs') ∧ bs'.N = bs.N ∧
        bs'.is_set i = some false ∧
        (∀ j, j ≠ i → bs'.is_set j = bs.is_set j))) := by
  refine ⟨?_, ?_, ?_⟩
  · intro h
    constructor
    · simp only [Bitset.set]
      rw [if_pos h]
    · simp only [Bitset.clear]
      rw [if_pos h]
  · intro h1 h2
    constructor
    · simp only [Bitset.set]
      rw [if_neg (by omega), if_pos h2]
    · simp only [Bitset.clear]
      rw [if_neg (by omega), if_pos h2]
  · intro h1 h2
    have hlen : bs.bits.length = (bs.N + 63) / 64 := hwf.1
    have hblock : (bs.N + 63) / 64 - i >>> 6 - 1 < bs.bits.length := by omega
    obtain ⟨w, hw⟩ :
        ∃ w, bs.bits[(bs.N + 63) / 64 - i >>> 6 - 1]? = some w := by
      rcases hx : bs.bits[(bs.N + 63) / 64 - i >>> 6 - 1]? with _ | w
      · rw [List.getElem?_eq_none_iff] at hx
        omega
      · exact ⟨w, rfl⟩
    have hi64 : i &&& 63 = i % 64 := Nat.and_pow_two_sub_one_eq_mod i 6
    have hidiv : i >>> 6 = i / 64 := Nat.shiftRight_eq_div_pow i 6
    constructor
    · refine ⟨{ bs with
              bits := bs.bits.set ((bs.N + 63) / 64 - i >>> 6 - 1)
                (w ||| (1 <<< (i &&& 63))) }, ?_, rfl, ?_, ?_⟩
      · simp only [Bitset.set]
        rw [if_neg (by omega), if_neg (Nat.not_le.mpr h2), hw]
      · rw [is_set_in_range
            { bs with
              bits := bs.bits.set ((bs.N + 63) / 64 - i >>> 6 - 1)
                (w ||| (1 <<< (i &&& 63))) } i h1 h2
            (List.getElem?_set_self hblock)]
        simp [Nat.one_shiftLeft, hi64, Nat.testBit_two_pow_self]
      · intro j hj
        rcases Nat.lt_or_ge bs.N j with hj1 | hj1
        · rw [is_set_high
              { bs with
              bits := bs.bits.set ((bs.N + 63) / 64 - i >>> 6 - 1)
                (w ||| (1 <<< (i &&& 63))) } j hj1,
            is_set_high bs j hj1]
        · rcases Nat.lt_or_ge (j >>> 6) ((bs.N + 63) / 64) with hj2 | hj2
          · by_cases hsame : j >>> 6 = i >>> 6
            · have hjdiv : j >>> 6 = j / 64 := Nat.shiftRight_eq_div_pow j 6
              have hjne : j % 64 ≠ i % 64 := by
                intro heq
                exact hj (by omega)
              rw [is_set_in_range
                  { bs with
              bits := bs.bits.set ((bs.N + 63) / 64 - i >>> 6 - 1)
                (w ||| (1 <<< (i &&& 63))) } j hj1 hj2
                  (by rw [hsame]; exact List.getElem?_set_self hblock),
                is_set_in_range bs j hj1 hj2 (by rw [hsame]; exact hw)]
              simp [Nat.one_shiftLeft, hi64,
                Nat.testBit_two_pow_of_ne (Ne.symm hjne)]
            · have hbj : (bs.N + 63) / 64 - j >>> 6 - 1 < bs.bits.length := by
                omega
              obtain ⟨wj, hwj⟩ :
                  ∃ wj, bs.bits[(bs.N + 63) / 64 - j >>> 6 - 1]? = some wj := by
                rcases hx : bs.bits[(bs.N + 63) / 64 - j >>> 6 - 1]? with _ | wj
                · rw [List.getElem?_eq_none_iff] at hx
                  omega
                · exact ⟨wj, rfl⟩
              have hbne : (bs.N + 63) / 64 - i >>> 6 - 1 ≠
                  (bs.N + 63) / 64 - j >>> 6 - 1 := by omega
              rw [is_set_in_range
                  { bs with
              bits := bs.bits.set ((bs.N + 63) / 64 - i >>> 6 - 1)
                (w ||| (1 <<< (i &&& 63))) } j hj1 hj2
                  ((List.getElem?_set_ne hbne).trans hwj),
                is_set_in_range bs j hj1 hj2 hwj]
          · rw [is_set_mid
              { bs with
              bits := bs.bits.set ((bs.N + 63) / 64 - i >>> 6 - 1)
                (w ||| (1 <<< (i &&& 63))) } j hj1 hj2,
            is_set_mid bs j hj1 hj2]
    · refine ⟨{ bs with
              bits := bs.bits.set ((bs.N + 63) / 64 - i >>> 6 - 1)
                (w &&& ((2 ^ 64 - 1) ^^^ (1 <<< (i &&& 63)))) }, ?_, rfl, ?_, ?_⟩
      · simp only [Bitset.clear]
        rw [if_neg (by omega), if_neg (Nat.not_le.mpr h2), hw]
      · rw [is_set_in_range
            { bs with
              bits := bs.bits.set ((bs.N + 63) / 64 - i >>> 6 - 1)
                (w &&& ((2 ^ 64 - 1) ^^^ (1 <<< (i &&& 63)))) } i h1 h2
            (List.getElem?_set_self hblock)]
        have hm : i % 64 < 64 := Nat.mod_lt _ (by norm_num)
        simp [Nat.one_shiftLeft, hi64, Nat.testBit_two_pow_self, hm]
        intro _
        exact testBit_u64_mask hm
      · intro j hj
        rcases Nat.lt_or_ge bs.N j with hj1 | hj1
        · rw [is_set_high
              { bs with
              bits := bs.bits.set ((bs.N + 63) / 64 - i >>> 6 - 1)
                (w &&& ((2 ^ 64 - 1) ^^^ (1 <<< (i &&& 63)))) } j hj1,
            is_set_high bs j hj1]
        · rcases Nat.lt_or_ge (j >>> 6) ((bs.N + 63) / 64) with hj2 | hj2
          · by_cases hsame : j >>> 6 = i >>> 6
            · have hjdiv : j >>> 6 = j / 64 := Nat.shiftRight_eq_div_pow j 6
              have hjne : j % 64 ≠ i % 64 := by
                intro heq
                exact hj (by omega)
              have hm : j % 64 < 64 := Nat.mod_lt _ (by norm_num)
              rw [is_set_in_range
                  { bs with
              bits := bs.bits.set ((bs.N + 63) / 64 - i >>> 6 - 1)
                (w &&& ((2 ^ 64 - 1) ^^^ (1 <<< (i &&& 63)))) } j hj1 hj2
                  (by rw [hsame]; exact List.getElem?_set_self hblock),
                is_set_in_range bs j hj1 hj2 (by rw [hsame]; exact hw)]
              simp [Nat.one_shiftLeft, hi64,
                Nat.testBit_two_pow_of_ne (Ne.symm hjne), hm]
              intro _
              exact testBit_u64_mask hm
            · have hbj : (bs.N + 63) / 64 - j >>> 6 - 1 < bs.bits.length := by
                omega
              obtain ⟨wj, hwj⟩ :
                  ∃ wj, bs.bits[(bs.N + 63) / 64 - j >>> 6 - 1]? = some wj := by
                rcases hx : bs.bits[(bs.N + 63) / 64 - j >>> 6 - 1]? with _ | wj
                · rw [List.getElem?_eq_none_iff] at hx
                  omega
                · exact ⟨wj, rfl⟩
              have hbne : (bs.N + 63) / 64 - i >>> 6 - 1 ≠
                  (bs.N + 63) / 64 - j >>> 6 - 1 := by omega
              rw [is_set_in_range
                  { bs with
              bits := bs.bits.set ((bs.N + 63) / 64 - i >>> 6 - 1)
                (w &&& ((2 ^ 64 - 1) ^^^ (1 <<< (i &&& 63)))) } j hj1 hj2
                  ((List.getElem?_set_ne hbne).trans hwj),
                is_set_in_range bs j hj1 hj2 hwj]
          · rw [is_set_mid
              { bs with
              bits := bs.bits.set ((bs.N + 63) / 64 - i >>> 6 - 1)
                (w &&& ((2 ^ 64 - 1) ^^^ (1 <<< (i &&& 63)))) } j hj1 hj2,
            is_set_mid bs j hj1 hj2]

/-- Witness for C9: the well-formed bitset `Bitset::<255>::new()` and the
in-range index 5. -/
theorem bitset_set_clear_bounds_witness :
    (Bitset.new 255).wf ∧
    (((Bitset.new 255).N < 5 →
      (Bitset.new 255).set 5 =
        some (.error (.BitsetIndexOutOfRange (Bitset.new 255).N)) ∧
      (Bitset.new 255).clear 5 =
        some (.error (.BitsetIndexOutOfRange (Bitset.new 255).N))) ∧
    (5 ≤ (Bitset.new 255).N →
      ((Bitset.new 255).N + 63) / 64 ≤ 5 >>> 6 →
      (Bitset.new 255).set 5 = none ∧ (Bitset.new 255).clear 5 = none) ∧
    (5 ≤ (Bitset.new 255).N →
      5 >>> 6 < ((Bitset.new 255).N + 63) / 64 →
      (∃ bs', (Bitset.new 255).set 5 = some (.ok bs') ∧
        bs'.N = (Bitset.new 255).N ∧
        bs'.is_set 5 = some true ∧
        (∀ j, j ≠ 5 → bs'.is_set j = (Bitset.new 255).is_set j)) ∧
      (∃ bs', (Bitset.new 255).clear 5 = some (.ok bs') ∧
        bs'.N = (Bitset.new 255).N ∧
        bs'.is_set 5 = some false ∧
        (∀ j, j ≠ 5 → bs'.is_set j = (Bitset.new 255).is_set j)))) :=
  ⟨by decide, bitset_set_clear_bounds (Bitset.new 255) 5 (by decide)⟩

/-! ### Best-index monotonicity across public operations (C10)

The cached BBO indices are written only by `recalculate_best_bid` /
`recalculate_best_ask` when a Limit remainder rests; every matching,
cancelling or error path leaves them untouched.  The lemmas below need no
well-formedness: they hold for every successful (non-panicking) run. -/

/-- `bk'` improves (or keeps) `bk`'s cached best indices: a cached best bid
can only rise, a cached best ask only fall, and neither reverts to
`none`. -/
def bestStep (bk bk' : FixedPriceOrderBook) : Prop :=
  (∀ b, bk.best_bid_index = some b →
    ∃ b', bk'.best_bid_index = some b' ∧ b ≤ b') ∧
  (∀ a, bk.best_ask_index = some a →
    ∃ a', bk'.best_ask_index = some a' ∧ a' ≤ a)

theorem bestStep_of_fields {bk bk' : FixedPriceOrderBook}
    (h1 : bk'.best_bid_index = bk.best_bid_index)
    (h2 : bk'.best_ask_index = bk.best_ask_index) : bestStep bk bk' :=
  ⟨fun b hb => ⟨b, h1.trans hb, le_refl b⟩,
   fun a ha => ⟨a, h2.trans ha, le_refl a⟩⟩

theorem bestStep_refl (bk : FixedPriceOrderBook) : bestStep bk bk :=
  bestStep_of_fields rfl rfl

theorem bestStep_trans {bk1 bk2 bk3 : FixedPriceOrderBook}
    (h12 : bestStep bk1 bk2) (h23 : bestStep bk2 bk3) : bestStep bk1 bk3 := by
  refine ⟨fun b hb => ?_, fun a ha => ?_⟩
  · obtain ⟨b2, hb2, hle2⟩ := h12.1 b hb
    obtain ⟨b3, hb3, hle3⟩ := h23.1 b2 hb2
    exact ⟨b3, hb3, le_trans hle2 hle3⟩
  · obtain ⟨a2, ha2, hle2⟩ := h12.2 a ha
    obtain ⟨a3, ha3, hle3⟩ := h23.2 a2 ha2
    exact ⟨a3, ha3, le_trans hle3 hle2⟩

/-- `fill_order` never touches the cached best indices. -/
theorem fill_order_bests {bk : FixedPriceOrderBook} {queue : List Nat}
    {a : Order} {ri : Nat} {nf : List OrderFill} {bk' : FixedPriceOrderBook}
    {r : Except OrderBookError (List Nat × Order × List OrderFill × Bool)}
    (h : fill_order bk queue a ri nf = some (bk', r)) :
    bk'.best_bid_index = bk.best_bid_index ∧
    bk'.best_ask_index = bk.best_ask_index := by
  unfold fill_order at h
  split at h
  · injection h with h
    injection h with h1 h2
    subst h1
    exact ⟨rfl, rfl⟩
  · split at h
    · injection h with h
      injection h with h1 h2
      subst h1
      exact ⟨rfl, rfl⟩
    · split at h
      · injection h with h
        injection h with h1 h2
        subst h1
        exact ⟨rfl, rfl⟩
      · injection h with h
        injection h with h1 h2
        subst h1
        exact ⟨rfl, rfl⟩

/-- The matching loop never touches the cached best indices. -/
theorem fill_loop_bests : ∀ (fuel : Nat) (bk : FixedPriceOrderBook)
    (a : Order) (queue : List Nat) (nf : List OrderFill)
    {bk' : FixedPriceOrderBook}
    {r : Except OrderBookError (Order × List Nat × List OrderFill)},
    fill_loop fuel bk a queue nf = some (bk', r) →
    bk'.best_bid_index = bk.best_bid_index ∧
    bk'.best_ask_index = bk.best_ask_index := by
  intro fuel
  induction fuel with
  | zero =>
    intro bk a queue nf bk' r h
    exact Option.noConfusion h
  | succ n ih =>
    intro bk a queue nf bk' r h
    unfold fill_loop at h
    split at h
    · split at h
      · injection h with h
        injection h with h1 h2
        subst h1
        exact ⟨rfl, rfl⟩
      · split at h
        · exact Option.noConfusion h
        · rename_i bk1 e heq
          injection h with h
          injection h with h1 h2
          subst h1
          exact fill_order_bests heq
        · rename_i bk1 q1 a1 f1 fl heq
          obtain ⟨e1, e2⟩ := fill_order_bests heq
          obtain ⟨g1, g2⟩ := ih bk1 a1 q1 f1 h
          exact ⟨g1.trans e1, g2.trans e2⟩
    · injection h with h
      injection h with h1 h2
      subst h1
      exact ⟨rfl, rfl⟩

/-- The bid-side level walk never touches the cached best indices. -/
theorem match_levels_bids_bests : ∀ (L : List Nat)
    (bk : FixedPriceOrderBook) (a : Order) (nf : List OrderFill)
    {bk' : FixedPriceOrderBook}
    {r : Except OrderBookError (Order × List OrderFill)},
    match_levels_bids bk a nf L = some (bk', r) →
    bk'.best_bid_index = bk.best_bid_index ∧
    bk'.best_ask_index = bk.best_ask_index := by
  intro L
  induction L with
  | nil =>
    intro bk a nf bk' r h
    injection h with h
    injection h with h1 h2
    subst h1
    exact ⟨rfl, rfl⟩
  | cons i rest ih =>
    intro bk a nf bk' r h
    unfold match_levels_bids at h
    split at h
    · injection h with h
      injection h with h1 h2
      subst h1
      exact ⟨rfl, rfl⟩
    · split at h
      · exact ih bk a nf h
      · rename_i queue heq
        simp only [] at h
        split at h
        · exact Option.noConfusion h
        · rename_i bk1 e heq2
          injection h with h
          injection h with h1 h2
          subst h1
          obtain ⟨e1, e2⟩ := fill_loop_bests _ _ _ _ _ heq2
          exact ⟨e1, e2⟩
        · rename_i bk1 a1 q1 f1 heq2
          obtain ⟨e1, e2⟩ := fill_loop_bests _ _ _ _ _ heq2
          obtain ⟨g1, g2⟩ := ih _ a1 f1 h
          exact ⟨g1.trans e1, g2.trans e2⟩

/-- The ask-side level walk never touches the cached best indices. -/
theorem match_levels_asks_bests : ∀ (L : List Nat)
    (bk : FixedPriceOrderBook) (a : Order) (nf : List OrderFill)
    {bk' : FixedPriceOrderBook}
    {r : Except OrderBookError (Order × List OrderFill)},
    match_levels_asks bk a nf L = some (bk', r) →
    bk'.best_bid_index = bk.best_bid_index ∧
    bk'.best_ask_index = bk.best_ask_index := by
  intro L
  induction L with
  | nil =>
    intro bk a nf bk' r h
    injection h with h
    injection h with h1 h2
    subst h1
    exact ⟨rfl, rfl⟩
  | cons i rest ih =>
    intro bk a nf bk' r h
    unfold match_levels_asks at h
    split at h
    · injection h with h
      injection h with h1 h2
      subst h1
      exact ⟨rfl, rfl⟩
    · split at h
      · exact ih bk a nf h
      · rename_i queue heq
        simp only [] at h
        split at h
        · exact Option.noConfusion h
        · rename_i bk1 e heq2
          injection h with h
          injection h with h1 h2
          subst h1
          obtain ⟨e1, e2⟩ := fill_loop_bests _ _ _ _ _ heq2
          exact ⟨e1, e2⟩
        · rename_i bk1 a1 q1 f1 heq2
          obtain ⟨e1, e2⟩ := fill_loop_bests _ _ _ _ _ heq2
          obtain ⟨g1, g2⟩ := ih _ a1 f1 h
          exact ⟨g1.trans e1, g2.trans e2⟩

/-- Matching against the book never touches the cached best indices. -/
theorem match_order_bests {bk : FixedPriceOrderBook} {a : Order}
    {s e : Nat} {bk' : FixedPriceOrderBook}
    {r : Except OrderBookError (Order × List OrderFill)}
    (h : match_order_against_book bk a s e = some (bk', r)) :
    bk'.best_bid_index = bk.best_bid_index ∧
    bk'.best_ask_index = bk.best_ask_index := by
  unfold match_order_against_book at h
  rcases hs : a.order_side with _ | _
  · rw [hs] at h
    rw [if_pos rfl] at h
    exact match_levels_asks_bests _ _ _ _ h
  · rw [hs] at h
    rw [if_neg (by decide)] at h
    exact match_levels_bids_bests _ _ _ _ h

/-- `fill_limit_order` never touches the cached best indices. -/
theorem fill_limit_order_bests {bk : FixedPriceOrderBook} {o : Order}
    {bk' : FixedPriceOrderBook}
    {r : Except OrderBookError (Order × List OrderFill)}
    (h : fill_limit_order bk o = some (bk', r)) :
    bk'.best_bid_index = bk.best_bid_index ∧
    bk'.best_ask_index = bk.best_ask_index := by
  simp only [fill_limit_order] at h
  split at h
  · exact Option.noConfusion h
  · rename_i bk1 e heq
    injection h with h
    injection h with h1 h2
    subst h1
    rcases hs : o.order_side with _ | _ <;> simp only [hs] at heq
    · exact match_order_bests heq
    · exact match_order_bests heq
  · rename_i bk1 a1 f1 heq
    injection h with h
    injection h with h1 h2
    subst h1
    rcases hs : o.order_side with _ | _ <;> simp only [hs] at heq
    · exact ⟨(match_order_bests heq).1, (match_order_bests heq).2⟩
    · exact ⟨(match_order_bests heq).1, (match_order_bests heq).2⟩

/-- `fill_market_order` never touches the cached best indices. -/
theorem fill_market_order_bests {bk : FixedPriceOrderBook} {o : Order}
    {bk' : FixedPriceOrderBook}
    {r : Except OrderBookError (Order × List OrderFill)}
    (h : fill_market_order bk o = some (bk', r)) :
    bk'.best_bid_index = bk.best_bid_index ∧
    bk'.best_ask_index = bk.best_ask_index := by
  simp only [fill_market_order] at h
  split at h
  · exact Option.noConfusion h
  · rename_i bk1 e heq
    injection h with h
    injection h with h1 h2
    subst h1
    rcases hs : o.order_side with _ | _ <;> simp only [hs] at heq
    · exact match_order_bests heq
    · exact match_order_bests heq
  · rename_i bk1 a1 f1 heq
    injection h with h
    injection h with h1 h2
    subst h1
    rcases hs : o.order_side with _ | _ <;> simp only [hs] at heq
    · exact ⟨(match_order_bests heq).1, (match_order_bests heq).2⟩
    · exact ⟨(match_order_bests heq).1, (match_order_bests heq).2⟩

/-- `recalculate_best_bid` only raises a cached best bid. -/
theorem recalculate_best_bid_step (bk : FixedPriceOrderBook) (p : Nat) :
    bestStep bk (recalculate_best_bid bk p) := by
  rcases hb : bk.best_bid_index with _ | b
  · have hred : recalculate_best_bid bk p =
        { bk with best_bid_index := some p } := by
      unfold recalculate_best_bid
      rw [hb]
    rw [hred]
    refine ⟨fun b0 hb0 => ?_, fun a ha => ⟨a, ha, le_refl a⟩⟩
    rw [hb] at hb0
    exact Option.noConfusion hb0
  · by_cases hgt : p > b
    · have hred : recalculate_best_bid bk p =
          { bk with best_bid_index := some p } := by
        unfold recalculate_best_bid
        rw [hb]
        exact if_pos hgt
      rw [hred]
      refine ⟨fun b0 hb0 => ?_, fun a ha => ⟨a, ha, le_refl a⟩⟩
      rw [hb] at hb0
      injection hb0 with hb0
      exact ⟨p, rfl, by omega⟩
    · have hred : recalculate_best_bid bk p = bk := by
        unfold recalculate_best_bid
        rw [hb]
        exact if_neg hgt
      rw [hred]
      exact bestStep_refl bk

/-- `recalculate_best_ask` only lowers a cached best ask. -/
theorem recalculate_best_ask_step (bk : FixedPriceOrderBook) (p : Nat) :
    bestStep bk (recalculate_best_ask bk p) := by
  rcases hb : bk.best_ask_index with _ | a
  · have hred : recalculate_best_ask bk p =
        { bk with best_ask_index := some p } := by
      unfold recalculate_best_ask
      rw [hb]
    rw [hred]
    refine ⟨fun b0 hb0 => ⟨b0, hb0, le_refl b0⟩, fun a0 ha0 => ?_⟩
    rw [hb] at ha0
    exact Option.noConfusion ha0
  · by_cases hlt : p < a
    · have hred : recalculate_best_ask bk p =
          { bk with best_ask_index := some p } := by
        unfold recalculate_best_ask
        rw [hb]
        exact if_pos hlt
      rw [hred]
      refine ⟨fun b0 hb0 => ⟨b0, hb0, le_refl b0⟩, fun a0 ha0 => ?_⟩
      rw [hb] at ha0
      injection ha0 with ha0
      exact ⟨p, rfl, by omega⟩
    · have hred : recalculate_best_ask bk p = bk := by
        unfold recalculate_best_ask
        rw [hb]
        exact if_neg hlt
      rw [hred]
      exact bestStep_refl bk

/-- Resting a Limit remainder only improves the cached best indices. -/
theorem rest_remaining_bestStep {bk : FixedPriceOrderBook} {o : Order}
    {pf : Bool} {bk' : FixedPriceOrderBook} {r : Except OrderBookError Unit}
    (h : rest_remaining_limit_order bk o pf = some (bk', r)) :
    bestStep bk bk' := by
  simp only [rest_remaining_limit_order] at h
  split at h
  · injection h with h
    injection h with h1 h2
    subst h1
    exact bestStep_refl bk
  · split at h
    · -- Buy side
      split at h
      · rename_i queue heq
        injection h with h
        injection h with h1 h2
        subst h1
        exact bestStep_trans (recalculate_best_bid_step bk o.price)
          (bestStep_of_fields rfl rfl)
      · split at h
        · injection h with h
          injection h with h1 h2
          subst h1
          exact bestStep_trans (recalculate_best_bid_step bk o.price)
            (bestStep_of_fields rfl rfl)
        · exact Option.noConfusion h
    · -- Sell side
      split at h
      · rename_i queue heq
        injection h with h
        injection h with h1 h2
        subst h1
        exact bestStep_trans (recalculate_best_ask_step bk o.price)
          (bestStep_of_fields rfl rfl)
      · split at h
        · injection h with h
          injection h with h1 h2
          subst h1
          exact bestStep_trans (recalculate_best_ask_step bk o.price)
            (bestStep_of_fields rfl rfl)
        · exact Option.noConfusion h

/-- `execute_fill_by_order_type` only improves the cached best indices. -/
theorem fill_fok_bestStep {bk : FixedPriceOrderBook} {o : Order}
    {bk1 : FixedPriceOrderBook}
    {r1 : Except OrderBookError (Order × List OrderFill)}
    (hm : fill_fill_or_kill_order bk o = some (bk1, r1)) :
    bestStep bk bk1 := by
  unfold fill_fill_or_kill_order at hm
  split at hm
  · exact Option.noConfusion hm
  · injection hm with hm
    injection hm with hm1 hm2
    subst hm1
    exact bestStep_of_fields rfl rfl
  · exact bestStep_of_fields (fill_limit_order_bests hm).1
      (fill_limit_order_bests hm).2

theorem execute_bestStep {bk : FixedPriceOrderBook} {o : Order}
    {bk' : FixedPriceOrderBook} {r : Except OrderBookError Unit}
    (h : execute_fill_by_order_type bk o = some (bk', r)) :
    bestStep bk bk' := by
  unfold execute_fill_by_order_type at h
  split at h
  · -- Limit
    split at h
    · exact Option.noConfusion h
    · rename_i bk1 e heq
      injection h with h
      injection h with h1 h2
      subst h1
      exact bestStep_of_fields (fill_limit_order_bests heq).1
        (fill_limit_order_bests heq).2
    · rename_i bk1 a1 f1 heq
      have hstep1 := bestStep_of_fields (fill_limit_order_bests heq).1
        (fill_limit_order_bests heq).2
      simp only [] at h
      split at h
      · exact bestStep_trans hstep1 (rest_remaining_bestStep h)
      · injection h with h
        injection h with h1 h2
        subst h1
        exact hstep1
  · -- Market
    split at h
    · exact Option.noConfusion h
    · rename_i bk1 e heq
      injection h with h
      injection h with h1 h2
      subst h1
      exact bestStep_of_fields (fill_market_order_bests heq).1
        (fill_market_order_bests heq).2
    · rename_i bk1 a1 f1 heq
      have hstep1 := bestStep_of_fields (fill_market_order_bests heq).1
        (fill_market_order_bests heq).2
      split at h
      · injection h with h
        injection h with h1 h2
        subst h1
        exact hstep1
      · injection h with h
        injection h with h1 h2
        subst h1
        exact hstep1
  · -- ImmediateOrCancel
    split at h
    · exact Option.noConfusion h
    · rename_i bk1 e heq
      injection h with h
      injection h with h1 h2
      subst h1
      exact bestStep_of_fields (fill_limit_order_bests heq).1
        (fill_limit_order_bests heq).2
    · rename_i bk1 v heq
      injection h with h
      injection h with h1 h2
      subst h1
      exact bestStep_of_fields (fill_limit_order_bests heq).1
        (fill_limit_order_bests heq).2
  · -- FillOrKill
    split at h
    · exact Option.noConfusion h
    · rename_i bk1 e heq
      injection h with h
      injection h with h1 h2
      subst h1
      exact fill_fok_bestStep heq
    · rename_i bk1 v heq
      injection h with h
      injection h with h1 h2
      subst h1
      exact fill_fok_bestStep heq

/-- `add_order` only improves the cached best indices. -/
theorem add_order_bestStep {bk : FixedPriceOrderBook} {o : Order}
    {bk' : FixedPriceOrderBook} {r : Except OrderBookError Unit}
    (h : add_order bk o = some (bk', r)) : bestStep bk bk' := by
  unfold add_order at h
  split at h
  · injection h with h
    injection h with h1 h2
    subst h1
    exact bestStep_refl bk
  · exact execute_bestStep h

/-- `cancel_order` never touches the cached best indices. -/
theorem cancel_order_bests {bk : FixedPriceOrderBook} {i : Nat}
    {bk' : FixedPriceOrderBook} {r : Except OrderBookError Unit}
    (h : cancel_order bk i = some (bk', r)) :
    bk'.best_bid_index = bk.best_bid_index ∧
    bk'.best_ask_index = bk.best_ask_index := by
  unfold cancel_order at h
  split at h
  · injection h with h
    injection h with h1 h2
    subst h1
    exact ⟨rfl, rfl⟩
  · split at h
    · exact Option.noConfusion h
    · split at h
      · exact Option.noConfusion h
      · split at h
        · injection h with h
          injection h with h1 h2
          subst h1
          exact ⟨rfl, rfl⟩
        · split at h
          · split at h
            · injection h with h
              injection h with h1 h2
              subst h1
              exact ⟨rfl, rfl⟩
            · injection h with h
              injection h with h1 h2
              subst h1
              exact ⟨rfl, rfl⟩
          · split at h
            · injection h with h
              injection h with h1 h2
              subst h1
              exact ⟨rfl, rfl⟩
            · injection h with h
              injection h with h1 h2
              subst h1
              exact ⟨rfl, rfl⟩

/-- `modify_order` only improves the cached best indices. -/
theorem modify_order_bestStep {bk : FixedPriceOrderBook} {i : Nat} {o : Order}
    {bk' : FixedPriceOrderBook} {r : Except OrderBookError Unit}
    (h : modify_order bk i o = some (bk', r)) : bestStep bk bk' := by
  unfold modify_order at h
  rcases hc : cancel_order bk i with _ | ⟨bk1, r1⟩
  · rw [hc] at h
    exact Option.noConfusion h
  · rw [hc] at h
    have hstep1 := bestStep_of_fields (cancel_order_bests hc).1
      (cancel_order_bests hc).2
    rcases r1 with e | v
    · injection h with h
      injection h with h1 h2
      subst h1
      exact hstep1
    · exact bestStep_trans hstep1 (add_order_bestStep h)

/-- The public mutating operations of the book. -/
inductive BookOp where
  | add (o : Order)
  | cancel (i : Nat)
  | modify (i : Nat) (o : Order)

/-- Run one public operation, keeping the mutated book also on error
results (as the `&mut self` receiver does). -/
def applyOp (bk : FixedPriceOrderBook) : BookOp → Option FixedPriceOrderBook
  | .add o =>
    match add_order bk o with
    | none => none
    | some (bk', _) => some bk'
  | .cancel i =>
    match cancel_order bk i with
    | none => none
    | some (bk', _) => some bk'
  | .modify i o =>
    match modify_order bk i o with
    | none => none
    | some (bk', _) => some bk'

/-- Run a sequence of public operations. -/
def applyOps : FixedPriceOrderBook → List BookOp → Option FixedPriceOrderBook
  | bk, [] => some bk
  | bk, op :: rest =>
    match applyOp bk op with
    | none => none
    | some bk' => applyOps bk' rest

/-- One public operation only improves the cached best indices. -/
theorem applyOp_bestStep {bk : FixedPriceOrderBook} {op : BookOp}
    {bk0 : FixedPriceOrderBook} (h : applyOp bk op = some bk0) :
    bestStep bk bk0 := by
  rcases op with o | i | ⟨i, o⟩
  · simp only [applyOp] at h
    split at h
    · exact Option.noConfusion h
    · rename_i bk1 r1 heq
      injection h with h
      subst h
      exact add_order_bestStep heq
  · simp only [applyOp] at h
    split at h
    · exact Option.noConfusion h
    · rename_i bk1 r1 heq
      injection h with h
      subst h
      exact bestStep_of_fields (cancel_order_bests heq).1
        (cancel_order_bests heq).2
  · simp only [applyOp] at h
    split at h
    · exact Option.noConfusion h
    · rename_i bk1 r1 heq
      injection h with h
      subst h
      exact modify_order_bestStep heq

/-- The book resulting from `cancel_order bkW 7`: the ask queue at tick 1
is emptied and slot 0 freed, while `best_ask_index` still caches tick 1. -/
def bkWStale : FixedPriceOrderBook :=
  { config := { min_price := 0, max_price := 2, tick_size := 1, queue_size := 4 }
    bids := [[], [], []]
    asks := [[], [], []]
    order_ledger := [none]
    index_mappings := [(7, 0)]
    trade_history := []
    best_bid_index := none
    best_ask_index := some 1
    clock := 0 }

/-- C10.  Across every successful sequence of public operations
(`add_order`, `cancel_order`, `modify_order`), a cached `best_bid_index`
never decreases once `Some` and a cached `best_ask_index` never increases
once `Some` (they are written only when a Limit remainder rests, via
`recalculate_best_bid` / `recalculate_best_ask`); and the cached value can
go stale: cancelling the only resting ask of `bkW` leaves
`best_ask_index = some 1` pointing at a level whose queue is empty. -/
theorem best_index_monotonicity :
    (∀ (bk : FixedPriceOrderBook) (ops : List BookOp)
      (bk' : FixedPriceOrderBook), applyOps bk ops = some bk' →
      (∀ b, bk.best_bid_index = some b →
        ∃ b', bk'.best_bid_index = some b' ∧ b ≤ b') ∧
      (∀ a, bk.best_ask_index = some a →
        ∃ a', bk'.best_ask_index = some a' ∧ a' ≤ a)) ∧
    applyOps bkW [BookOp.cancel 7] = some bkWStale ∧
    bkWStale.best_ask_index = some 1 ∧
    bkWStale.asks[1]? = some [] := by
  refine ⟨?_, rfl, rfl, rfl⟩
  intro bk ops
  induction ops generalizing bk with
  | nil =>
    intro bk' h
    injection h with h
    subst h
    exact bestStep_of_fields rfl rfl
  | cons op rest ih =>
    intro bk' h
    unfold applyOps at h
    split at h
    · exact Option.noConfusion h
    · rename_i bk1 heq
      exact bestStep_trans (applyOp_bestStep heq) (ih bk1 bk' h)

/-- Witness for C10: run `[cancel 7]` on the concrete book `bkW` and apply
the monotonicity to its cached best ask. -/
theorem best_index_monotonicity_witness :
    applyOps bkW [BookOp.cancel 7] = some bkWStale ∧
    (∀ b, bkW.best_bid_index = some b →
      ∃ b', bkWStale.best_bid_index = some b' ∧ b ≤ b') ∧
    (∀ a, bkW.best_ask_index = some a →
      ∃ a', bkWStale.best_ask_index = some a' ∧ a' ≤ a) :=
  ⟨rfl, best_index_monotonicity.1 bkW [BookOp.cancel 7] bkWStale rfl⟩

end OBook
